import Mathlib

/-!
Verification of the word-search puzzle core (puzzle generation and
selection validation) of the `Emmanuelhla/Emmanuelhla` repository.

The generator (`canPlaceWord`, `placeWord`, `generatePuzzle`) is embedded
from `src/src/App.js` (identical in `src/unnamed/part_000`); the selection
validator (`validateSelection`) is embedded from `src/unnamed/part_000`.
JavaScript strings are modelled as `List Char`, the grid as a list of rows
of characters with the blank `' '` as the "unset" sentinel (exactly as the
source initialises the grid), and `Math.random()`-driven choices as an
explicit stream of pre-sampled natural numbers, one entry consumed per
`Math.floor(Math.random() * k)` call (reduced modulo `k`).
-/

/-- Grid side length; the source fixes `GRID_SIZE = 15`. -/
def GRID_SIZE : Nat := 15

/-- The hard-coded fill alphabet `HAUSA_ALPHABET_CHARS` from the source
(`'abcdefghijklmnopqrstuwyzɓɗƙ'`), as a list of characters: every
character of the string occupies a single UTF-16 code unit, so JavaScript
indexing into it is character indexing. -/
def HAUSA_ALPHABET_CHARS : List Char := "abcdefghijklmnopqrstuwyzɓɗƙ".toList

/-- A grid is a list of rows of single characters. -/
abbrev Grid := List (List Char)

/-- A cell `{r, c}` as used by the source for placement records and
selections.  Coordinates are integers because candidate placements may
step outside the grid (the source checks `r < 0` etc.). -/
structure Cell where
  r : Int
  c : Int
deriving DecidableEq

/-- The 8-direction set `DIRECTIONS` from the source, as `(dr, dc)`
pairs in source order. -/
def DIRECTIONS : List (Int × Int) :=
  [(0, 1), (1, 0), (1, 1), (-1, -1), (0, -1), (-1, 0), (1, -1), (-1, 1)]

/-- Reading `grid[r][c]`; out-of-range reads default to the blank
sentinel (the source only reads in-bounds cells). -/
def gridGet (g : Grid) (r c : Int) : Char :=
  (g.getD r.toNat []).getD c.toNat ' '

/-- Writing `grid[r][c] = ch` (no-op out of range; the source only writes
in-bounds cells). -/
def gridSet (g : Grid) (r c : Int) (ch : Char) : Grid :=
  g.set r.toNat ((g.getD r.toNat []).set c.toNat ch)

/-- The `canPlaceWord(word, row, col, dr, dc, grid)` check from the
source: every character position must be in bounds and its target cell
blank or already holding the required character.  The source's loop over
`i` with cell `(row + i*dr, col + i*dc)` is rendered as recursion on the
word with the start cell shifted by `(dr, dc)` each step. -/
def canPlaceWord : List Char → Int → Int → Int → Int → Grid → Bool
  | [], _, _, _, _, _ => true
  | ch :: rest, row, col, dr, dc, g =>
    !(row < 0 || (GRID_SIZE : Int) ≤ row || col < 0 || (GRID_SIZE : Int) ≤ col) &&
      (gridGet g row col == ' ' || gridGet g row col == ch) &&
      canPlaceWord rest (row + dr) (col + dc) dr dc g

/-- The `placeWord(word, row, col, dr, dc, grid)` write from the source,
writing `word[i]` at `(row + i*dr, col + i*dc)` for each `i`. -/
def placeWord : List Char → Int → Int → Int → Int → Grid → Grid
  | [], _, _, _, _, g => g
  | ch :: rest, row, col, dr, dc, g =>
    placeWord rest (row + dr) (col + dc) dr dc (gridSet g row col ch)

/-- The cell sequence `{r: startRow + i*dr, c: startCol + i*dc}` recorded
into `hiddenWordLocations[word]` by the source on a successful placement. -/
def placementCells : List Char → Int → Int → Int → Int → List Cell
  | [], _, _, _, _ => []
  | _ :: rest, row, col, dr, dc =>
    ⟨row, col⟩ :: placementCells rest (row + dr) (col + dc) dr dc

/-- One `Math.floor(Math.random() * k)` draw: consume the next
pre-sampled value (reduced mod `k`); an exhausted stream yields `0`. -/
def nextRand (rng : List Nat) (k : Nat) : Nat × List Nat :=
  match rng with
  | [] => (0, [])
  | v :: rest => (v % k, rest)

/-- `GRID_SIZE * GRID_SIZE * DIRECTIONS.length * 2`, the source's
`maxAttempts` bound on the randomized placement loop. -/
def maxAttempts : Nat := GRID_SIZE * GRID_SIZE * DIRECTIONS.length * 2

/-- The source's `while (!placed && attempts < maxAttempts)` retry loop
for one word, with the remaining attempt budget as explicit fuel.
Returns the updated grid and recorded cells on success (`none` if the
budget is exhausted), the remaining random stream, and the number of
attempts performed. -/
def attemptLoop : Nat → List Char → Grid → List Nat →
    Option (Grid × List Cell) × List Nat × Nat
  | 0, _, _, rng => (none, rng, 0)
  | fuel + 1, w, g, rng =>
    let p1 := nextRand rng GRID_SIZE
    let p2 := nextRand p1.2 GRID_SIZE
    let p3 := nextRand p2.2 DIRECTIONS.length
    let dir := DIRECTIONS.getD p3.1 (0, 1)
    if canPlaceWord w p1.1 p2.1 dir.1 dir.2 g then
      (some (placeWord w p1.1 p2.1 dir.1 dir.2 g,
             placementCells w p1.1 p2.1 dir.1 dir.2), p3.2, 1)
    else
      let rec' := attemptLoop fuel w g p3.2
      (rec'.1, rec'.2.1, rec'.2.2 + 1)

/-- `hiddenWordLocations[word] = cells`: JavaScript object assignment
keeps the position of an existing key and replaces its value, otherwise
appends the new key. -/
def upsertPlacement : List (List Char × List Cell) → List Char → List Cell →
    List (List Char × List Cell)
  | [], w, cs => [(w, cs)]
  | (w', cs') :: rest, w, cs =>
    if w' = w then (w', cs) :: rest else (w', cs') :: upsertPlacement rest w cs

/-- The `wordsToHide.forEach` placement phase of `generatePuzzle`:
process each word in order, threading grid, placements and random
stream. -/
def generateLoop : List (List Char) → Grid → List (List Char × List Cell) →
    List Nat → Grid × List (List Char × List Cell) × List Nat
  | [], g, ps, rng => (g, ps, rng)
  | w :: ws, g, ps, rng =>
    match attemptLoop maxAttempts w g rng with
    | (some (g', cs), rng', _) => generateLoop ws g' (upsertPlacement ps w cs) rng'
    | (none, rng', _) => generateLoop ws g ps rng'

/-- Stable insertion keeping elements of length `≥ w.length` in front:
one step of the stable descending-length sort. -/
def insertByLen (w : List Char) : List (List Char) → List (List Char)
  | [] => [w]
  | x :: xs => if x.length < w.length then w :: x :: xs else x :: insertByLen w xs

/-- The source's stable `sort((a, b) => b.length - a.length)`: longest
words first, ties keeping original relative order. -/
def sortWords (l : List (List Char)) : List (List Char) :=
  l.foldl (fun acc w => insertByLen w acc) []

/-- The initial all-blank `GRID_SIZE × GRID_SIZE` grid. -/
def emptyGrid : Grid := List.replicate GRID_SIZE (List.replicate GRID_SIZE ' ')

/-- One cell of the fill phase: a still-blank cell receives a random
character of `HAUSA_ALPHABET_CHARS`; a non-blank cell is left alone and
consumes no randomness. -/
def fillCellStep (acc : Grid × List Nat) (rc : Nat × Nat) : Grid × List Nat :=
  if gridGet acc.1 rc.1 rc.2 == ' ' then
    let p := nextRand acc.2 HAUSA_ALPHABET_CHARS.length
    (gridSet acc.1 rc.1 rc.2 (HAUSA_ALPHABET_CHARS.getD p.1 ' '), p.2)
  else acc

/-- Row-major traversal order of the fill phase's nested `for` loops. -/
def gridPositions : List (Nat × Nat) :=
  (List.range GRID_SIZE).flatMap fun r => (List.range GRID_SIZE).map fun c => (r, c)

/-- The fill phase of `generatePuzzle`: every still-blank cell is given a
random character of the hard-coded `HAUSA_ALPHABET_CHARS` alphabet. -/
def fillGrid (g : Grid) (rng : List Nat) : Grid :=
  (gridPositions.foldl fillCellStep (g, rng)).1

/-- `generatePuzzle(words)` from the source: filter out words longer than
the grid, sort by descending length (stable), place each word with the
bounded random retry loop, then fill remaining blanks from the fixed
alphabet.  Returns `(grid, hiddenWordLocations)`. -/
def generatePuzzle (words : List (List Char)) (rng : List Nat) :
    Grid × List (List Char × List Cell) :=
  let res := generateLoop (sortWords (words.filter fun w => w.length ≤ GRID_SIZE))
      emptyGrid [] rng
  (fillGrid res.1 res.2.2, res.2.1)

/-- Outcome of one validation call, labelling the source's user-facing
message branches: too-short selection, non-straight selection, imprecise
drag, a found word, or no match. -/
inductive Outcome where
  | TooShort
  | NotStraight
  | ImpreciseLine
  | Found (word : List Char)
  | NoMatch
deriving DecidableEq

/-- `dr === 0 ? 0 : dr / Math.abs(dr)` from the source (the division is
exact, so its value does not depend on the rounding convention). -/
def intSign (x : Int) : Int := if x = 0 then 0 else x / x.natAbs

/-- The canonical straight-line reconstruction of the source: `len` cells
starting at `start`, advancing by the unit step toward `finish`. -/
def canonicalPath (start finish : Cell) (len : Nat) : List Cell :=
  (List.range len).map fun (i : Nat) =>
    ⟨start.r + (i : Int) * intSign (finish.r - start.r),
     start.c + (i : Int) * intSign (finish.c - start.c)⟩

/-- The source's cell-set comparison via JavaScript `Set`s of `"r,c"`
strings: `xs`'s set and `ys`'s set have equal size and every element of
`xs`'s set is in `ys`'s set. -/
def cellSetEq (xs ys : List Cell) : Bool :=
  xs.dedup.length == ys.dedup.length && xs.dedup.all fun p => ys.contains p

/-- `hiddenWordLocations[word]` lookup (`undefined` becomes `none`). -/
def lookupWord (ps : List (List Char × List Cell)) (w : List Char) :
    Option (List Cell) :=
  match ps with
  | [] => none
  | (w', cs) :: rest => if w' = w then some cs else lookupWord rest w

/-- Reading the grid along a cell sequence and lowercasing, as the source
builds `selectedWord` and `actualHiddenWord`. -/
def readPath (g : Grid) (cells : List Cell) : List Char :=
  cells.map fun p => (gridGet g p.r p.c).toLower

/-- The `for (const word of wordsToFind)` matching loop of the source's
`validateSelection`: skip missing keys, and return the first word whose
hidden cell set exactly matches the selection's cell set, whose word
matches the selected word forward or reversed, and which is not already
found. -/
def matchWords (g : Grid) (ps : List (List Char × List Cell))
    (found : List (List Char)) (selectedCells : List Cell)
    (selectedWord : List Char) : List (List Char) → Outcome
  | [] => Outcome.NoMatch
  | w :: rest =>
    match lookupWord ps w with
    | none => matchWords g ps found selectedCells selectedWord rest
    | some locs =>
      if cellSetEq selectedCells locs &&
          (selectedWord == readPath g locs ||
            selectedWord == (readPath g locs).reverse) &&
          !(found.contains w) then
        Outcome.Found w
      else matchWords g ps found selectedCells selectedWord rest

/-- `validateSelection` from `src/unnamed/part_000`: an empty selection
returns immediately and a single cell cannot form a word (`TooShort`);
otherwise the endpoints must be axis- or 45°-aligned (`NotStraight`
otherwise); the canonical straight path of `selectedCells.length` cells
is reconstructed from the first cell toward the last and its cell set
compared with the selection's (`ImpreciseLine` on mismatch); finally the
word read along the canonical path is matched against the hidden words. -/
def validateSelection (g : Grid) (ps : List (List Char × List Cell))
    (wordsToFind : List (List Char)) (found : List (List Char))
    (selectedCells : List Cell) : Outcome :=
  match selectedCells with
  | [] => Outcome.TooShort
  | start :: _ =>
    let finish := selectedCells.getLastD start
    let len := selectedCells.length
    if len = 1 then Outcome.TooShort
    else
      let dr := finish.r - start.r
      let dc := finish.c - start.c
      if dr = 0 || dc = 0 || dr.natAbs == dc.natAbs then
        let pathCells := canonicalPath start finish len
        if cellSetEq selectedCells pathCells then
          matchWords g ps found selectedCells (readPath g pathCells) wordsToFind
        else Outcome.ImpreciseLine
      else Outcome.NotStraight

/-! ### Basic list lemmas used by the grid model -/

theorem list_set_of_length_le {α : Type} (l : List α) (i : Nat) (a : α)
    (h : l.length ≤ i) : l.set i a = l := by
  induction l generalizing i with
  | nil => rfl
  | cons x xs ih =>
    cases i with
    | zero => simp at h
    | succ j => simp only [List.set]; rw [ih j (by simpa using h)]

theorem getD_set_eq_of_lt {α : Type} (l : List α) (i : Nat) (a d : α)
    (h : i < l.length) : (l.set i a).getD i d = a := by
  induction l generalizing i with
  | nil => simp at h
  | cons x xs ih =>
    cases i with
    | zero => rfl
    | succ j => simpa using ih j (by simpa using h)

theorem getD_set_ne {α : Type} (l : List α) (i j : Nat) (a d : α)
    (h : i ≠ j) : (l.set i a).getD j d = l.getD j d := by
  induction l generalizing i j with
  | nil => rfl
  | cons x xs ih =>
    cases i with
    | zero =>
      cases j with
      | zero => exact absurd rfl h
      | succ k => rfl
    | succ i' =>
      cases j with
      | zero => rfl
      | succ k => simpa using ih i' k (by omega)

theorem getD_mem_of_lt {α : Type} (l : List α) (i : Nat) (d : α)
    (h : i < l.length) : l.getD i d ∈ l := by
  induction l generalizing i with
  | nil => simp at h
  | cons x xs ih =>
    cases i with
    | zero => simp
    | succ j =>
      simp only [List.getD_cons_succ]
      exact List.mem_cons_of_mem _ (ih j (by simpa using h))

theorem getD_map_of_lt {α β : Type} (f : α → β) (l : List α) (i : Nat)
    (d : β) (d' : α) (h : i < l.length) :
    (l.map f).getD i d = f (l.getD i d') := by
  induction l generalizing i with
  | nil => simp at h
  | cons x xs ih =>
    cases i with
    | zero => rfl
    | succ j => simpa using ih j (by simpa using h)

/-! ### Grid read/write lemmas -/

/-- Cell coordinates in bounds of the grid. -/
def InB (r c : Int) : Prop :=
  0 ≤ r ∧ r < (GRID_SIZE : Int) ∧ 0 ≤ c ∧ c < (GRID_SIZE : Int)

instance (r c : Int) : Decidable (InB r c) := by
  unfold InB
  infer_instance

/-- Well-formed grid: `GRID_SIZE` rows of `GRID_SIZE` characters. -/
def gridWF (g : Grid) : Prop :=
  g.length = GRID_SIZE ∧ ∀ i, i < GRID_SIZE → (g.getD i []).length = GRID_SIZE

theorem gridWF_emptyGrid : gridWF emptyGrid := by
  constructor
  · simp [emptyGrid]
  · intro i hi
    have : (emptyGrid.getD i []) = List.replicate GRID_SIZE ' ' := by
      simp [emptyGrid, List.getD_eq_getElem?_getD, hi]
    rw [this]; simp

theorem gridWF_gridSet (g : Grid) (r c : Int) (ch : Char) (h : gridWF g) :
    gridWF (gridSet g r c ch) := by
  obtain ⟨hlen, hrow⟩ := h
  by_cases hr : r.toNat < GRID_SIZE
  · refine ⟨by simp [gridSet, hlen], ?_⟩
    intro i hi
    by_cases hir : i = r.toNat
    · subst hir
      rw [gridSet, getD_set_eq_of_lt _ _ _ _ (by omega)]
      simpa using hrow _ hi
    · rw [gridSet, getD_set_ne _ _ _ _ _ (fun hh => hir hh.symm)]
      exact hrow _ hi
  · rw [gridSet, list_set_of_length_le _ _ _ (by omega)]
    exact ⟨hlen, hrow⟩

theorem gridGet_gridSet_self (g : Grid) (r c : Int) (ch : Char)
    (hwf : gridWF g) (hb : InB r c) :
    gridGet (gridSet g r c ch) r c = ch := by
  obtain ⟨hlen, hrow⟩ := hwf
  obtain ⟨h1, h2, h3, h4⟩ := hb
  have hr : r.toNat < GRID_SIZE := by omega
  have hc : c.toNat < GRID_SIZE := by omega
  rw [gridGet, gridSet, getD_set_eq_of_lt _ _ _ _ (by omega),
    getD_set_eq_of_lt _ _ _ _ (by rw [hrow _ hr]; omega)]

theorem gridGet_gridSet_ne (g : Grid) (r c r' c' : Int) (ch : Char)
    (h : r.toNat ≠ r'.toNat ∨ c.toNat ≠ c'.toNat) :
    gridGet (gridSet g r c ch) r' c' = gridGet g r' c' := by
  rcases h with h | h
  · rw [gridGet, gridSet, getD_set_ne _ _ _ _ _ h, gridGet]
  · by_cases hr : r.toNat = r'.toNat
    · rw [gridGet, gridSet, hr]
      by_cases hlt : r'.toNat < g.length
      · rw [getD_set_eq_of_lt _ _ _ _ hlt, getD_set_ne _ _ _ _ _ h, gridGet]
      · rw [list_set_of_length_le _ _ _ (by omega), gridGet]
    · rw [gridGet, gridSet, getD_set_ne _ _ _ _ _ hr, gridGet]

theorem inB_toNat_inj (r c r' c' : Int) (h : InB r c) (h' : InB r' c')
    (hne : ¬(r = r' ∧ c = c')) : r.toNat ≠ r'.toNat ∨ c.toNat ≠ c'.toNat := by
  obtain ⟨a1, a2, a3, a4⟩ := h
  obtain ⟨b1, b2, b3, b4⟩ := h'
  by_cases hr : r = r'
  · right; subst hr
    have : c ≠ c' := fun hc => hne ⟨rfl, hc⟩
    omega
  · left; omega


/-! ### Placement cell sequences -/

theorem placementCells_length (w : List Char) (row col dr dc : Int) :
    (placementCells w row col dr dc).length = w.length := by
  induction w generalizing row col with
  | nil => rfl
  | cons ch rest ih => simp [placementCells, ih]

theorem mem_placementCells (w : List Char) (row col dr dc : Int) (p : Cell) :
    p ∈ placementCells w row col dr dc ↔
      ∃ k, k < w.length ∧ p = ⟨row + k * dr, col + k * dc⟩ := by
  induction w generalizing row col with
  | nil => simp [placementCells]
  | cons ch rest ih =>
    simp only [placementCells, List.mem_cons, ih]
    constructor
    · rintro (rfl | ⟨k, hk, rfl⟩)
      · exact ⟨0, by simp⟩
      · refine ⟨k + 1, by simpa using hk, ?_⟩
        have h1 : row + dr + (k : Int) * dr = row + ((k : Int) + 1) * dr := by ring
        have h2 : col + dc + (k : Int) * dc = col + ((k : Int) + 1) * dc := by ring
        simp [h1, h2]
    · rintro ⟨k, hk, rfl⟩
      cases k with
      | zero => left; simp
      | succ k' =>
        right
        refine ⟨k', by simpa using hk, ?_⟩
        have h1 : row + dr + (k' : Int) * dr = row + ((k' : Int) + 1) * dr := by ring
        have h2 : col + dc + (k' : Int) * dc = col + ((k' : Int) + 1) * dc := by ring
        push_cast
        simp [h1, h2]

theorem placementCells_getD (w : List Char) (row col dr dc : Int) (k : Nat)
    (hk : k < w.length) :
    (placementCells w row col dr dc).getD k ⟨0, 0⟩ =
      ⟨row + k * dr, col + k * dc⟩ := by
  induction w generalizing row col k with
  | nil => simp at hk
  | cons ch rest ih =>
    cases k with
    | zero => simp [placementCells]
    | succ k' =>
      simp only [placementCells, List.getD_cons_succ]
      rw [ih _ _ _ (by simpa using hk)]
      have h1 : row + dr + (k' : Int) * dr = row + ((k' : Int) + 1) * dr := by ring
      have h2 : col + dc + (k' : Int) * dc = col + ((k' : Int) + 1) * dc := by ring
      push_cast
      simp [h1, h2]

theorem head_not_mem_placementCells (rest : List Char) (row col dr dc : Int)
    (hdir : ¬(dr = 0 ∧ dc = 0)) :
    (⟨row, col⟩ : Cell) ∉ placementCells rest (row + dr) (col + dc) dr dc := by
  rw [mem_placementCells]
  rintro ⟨k, hk, hp⟩
  have h1 : row = row + dr + (k : Int) * dr := congrArg Cell.r hp
  have h2 : col = col + dc + (k : Int) * dc := congrArg Cell.c hp
  have hdr : ((k : Int) + 1) * dr = 0 := by linarith
  have hdc : ((k : Int) + 1) * dc = 0 := by linarith
  have hk1 : ((k : Int) + 1) ≠ 0 := by positivity
  exact hdir ⟨by
    rcases mul_eq_zero.mp hdr with h | h
    · exact absurd h hk1
    · exact h, by
    rcases mul_eq_zero.mp hdc with h | h
    · exact absurd h hk1
    · exact h⟩

/-! ### The placement check -/

theorem canPlaceWord_cons (ch : Char) (rest : List Char) (row col dr dc : Int)
    (g : Grid) :
    canPlaceWord (ch :: rest) row col dr dc g = true ↔
      InB row col ∧ (gridGet g row col = ' ' ∨ gridGet g row col = ch) ∧
        canPlaceWord rest (row + dr) (col + dc) dr dc g = true := by
  rw [canPlaceWord]
  simp only [Bool.and_eq_true, Bool.not_eq_true', Bool.or_eq_false_iff,
    Bool.or_eq_true, beq_iff_eq, decide_eq_false_iff_not, not_lt, not_le, InB]
  constructor
  · rintro ⟨⟨⟨⟨⟨h1, h2⟩, h3⟩, h4⟩, h5⟩, h6⟩
    exact ⟨⟨h1, h2, h3, h4⟩, h5, h6⟩
  · rintro ⟨⟨h1, h2, h3, h4⟩, h5, h6⟩
    exact ⟨⟨⟨⟨⟨h1, h2⟩, h3⟩, h4⟩, h5⟩, h6⟩

theorem canPlaceWord_iff (w : List Char) (row col dr dc : Int) (g : Grid) :
    canPlaceWord w row col dr dc g = true ↔
      ∀ k, k < w.length →
        InB (row + k * dr) (col + k * dc) ∧
          (gridGet g (row + k * dr) (col + k * dc) = ' ' ∨
            gridGet g (row + k * dr) (col + k * dc) = w.getD k ' ') := by
  induction w generalizing row col with
  | nil => simp [canPlaceWord]
  | cons ch rest ih =>
    rw [canPlaceWord_cons, ih]
    constructor
    · rintro ⟨hb, hch, hrest⟩ k hk
      cases k with
      | zero =>
        refine ⟨by simpa using hb, ?_⟩
        simpa using hch
      | succ k' =>
        have hmem := hrest k' (by simpa using hk)
        have h1 : row + dr + (k' : Int) * dr = row + ((k' : Int) + 1) * dr := by ring
        have h2 : col + dc + (k' : Int) * dc = col + ((k' : Int) + 1) * dc := by ring
        rw [h1, h2] at hmem
        push_cast
        simpa using hmem
    · intro h
      refine ⟨?_, ?_, ?_⟩
      · have := (h 0 (by simp)).1
        simpa using this
      · have := (h 0 (by simp)).2
        simpa using this
      · intro k hk
        have hmem := h (k + 1) (by simpa using hk)
        have h1 : row + dr + (k : Int) * dr = row + ((k : Int) + 1) * dr := by ring
        have h2 : col + dc + (k : Int) * dc = col + ((k : Int) + 1) * dc := by ring
        rw [h1, h2]
        push_cast at hmem
        simpa using hmem

theorem canPlaceWord_congr (w : List Char) (row col dr dc : Int) (g g' : Grid)
    (hsame : ∀ k, k < w.length →
      gridGet g' (row + k * dr) (col + k * dc) = gridGet g (row + k * dr) (col + k * dc)) :
    canPlaceWord w row col dr dc g' = canPlaceWord w row col dr dc g := by
  by_cases hg : canPlaceWord w row col dr dc g = true
  · rw [hg]
    rw [canPlaceWord_iff] at hg ⊢
    intro k hk
    rw [hsame k hk]
    exact hg k hk
  · have hg' : ¬ canPlaceWord w row col dr dc g' = true := by
      rw [canPlaceWord_iff] at hg ⊢
      intro hc
      exact hg (fun k hk => by rw [← hsame k hk]; exact hc k hk)
    simp only [Bool.not_eq_true] at hg hg'
    rw [hg, hg']

theorem nonneg_toNat_ne (r c r' c' : Int) (h1 : 0 ≤ r) (h2 : 0 ≤ c)
    (h3 : 0 ≤ r') (h4 : 0 ≤ c') (hne : ¬(r = r' ∧ c = c')) :
    r.toNat ≠ r'.toNat ∨ c.toNat ≠ c'.toNat := by
  by_cases hr : r = r'
  · right
    have : c ≠ c' := fun hc => hne ⟨hr, hc⟩
    omega
  · left; omega

theorem canPlaceWord_tail_gridSet (ch : Char) (rest : List Char)
    (row col dr dc : Int) (g : Grid) (a : Char)
    (hdir : ¬(dr = 0 ∧ dc = 0))
    (hcan : canPlaceWord (ch :: rest) row col dr dc g = true) :
    canPlaceWord rest (row + dr) (col + dc) dr dc (gridSet g row col a) = true := by
  have h := (canPlaceWord_iff _ _ _ _ _ _).mp hcan
  have h0 := (h 0 (by simp)).1
  simp only [Nat.cast_zero, zero_mul, add_zero] at h0
  rw [canPlaceWord_iff]
  intro k hk
  have hk1 := h (k + 1) (by simp only [List.length_cons]; omega)
  have e1 : row + ((k : Int) + 1) * dr = row + dr + (k : Int) * dr := by ring
  have e2 : col + ((k : Int) + 1) * dc = col + dc + (k : Int) * dc := by ring
  push_cast at hk1
  rw [e1, e2] at hk1
  obtain ⟨hb, hv⟩ := hk1
  have hcellne : ¬(row + dr + (k : Int) * dr = row ∧ col + dc + (k : Int) * dc = col) := by
    rintro ⟨hr, hc⟩
    apply hdir
    have hdr : ((k : Int) + 1) * dr = 0 := by linarith
    have hdc : ((k : Int) + 1) * dc = 0 := by linarith
    have hk1' : ((k : Int) + 1) ≠ 0 := by positivity
    constructor
    · rcases mul_eq_zero.mp hdr with hz | hz
      · exact absurd hz hk1'
      · exact hz
    · rcases mul_eq_zero.mp hdc with hz | hz
      · exact absurd hz hk1'
      · exact hz
  have hget : gridGet (gridSet g row col a) (row + dr + (k : Int) * dr)
      (col + dc + (k : Int) * dc) =
      gridGet g (row + dr + (k : Int) * dr) (col + dc + (k : Int) * dc) := by
    apply gridGet_gridSet_ne
    rcases nonneg_toNat_ne _ _ _ _ hb.1 hb.2.2.1 h0.1 h0.2.2.1
      (by tauto) with hx | hx
    · left; exact fun hh => hx hh.symm
    · right; exact fun hh => hx hh.symm
  refine ⟨hb, ?_⟩
  rw [hget]
  have : (ch :: rest).getD (k + 1) ' ' = rest.getD k ' ' := rfl
  rw [this] at hv
  exact hv

theorem gridWF_placeWord (w : List Char) (row col dr dc : Int) (g : Grid)
    (hwf : gridWF g) : gridWF (placeWord w row col dr dc g) := by
  induction w generalizing row col g with
  | nil => exact hwf
  | cons ch rest ih =>
    rw [placeWord]
    exact ih _ _ _ (gridWF_gridSet _ _ _ _ hwf)

theorem placeWord_untouched (w : List Char) (row col dr dc : Int) (g : Grid)
    (pr pc : Int) (hdir : ¬(dr = 0 ∧ dc = 0))
    (hcan : canPlaceWord w row col dr dc g = true)
    (hpr : 0 ≤ pr) (hpc : 0 ≤ pc)
    (hnot : (⟨pr, pc⟩ : Cell) ∉ placementCells w row col dr dc) :
    gridGet (placeWord w row col dr dc g) pr pc = gridGet g pr pc := by
  induction w generalizing row col g with
  | nil => rfl
  | cons ch rest ih =>
    rw [placeWord]
    have hcan0 := (canPlaceWord_cons _ _ _ _ _ _ _).mp hcan
    have hnot0 : ¬(pr = row ∧ pc = col) := by
      rintro ⟨rfl, rfl⟩
      exact hnot (by simp [placementCells])
    have hnotrest : (⟨pr, pc⟩ : Cell) ∉
        placementCells rest (row + dr) (col + dc) dr dc := by
      intro hm
      exact hnot (by simp [placementCells, hm])
    rw [ih _ _ _ (canPlaceWord_tail_gridSet _ _ _ _ _ _ _ _ hdir hcan) hnotrest]
    apply gridGet_gridSet_ne
    rcases nonneg_toNat_ne row col pr pc hcan0.1.1 hcan0.1.2.2.1 hpr hpc
      (by tauto) with hx | hx
    · left; exact hx
    · right; exact hx

theorem placeWord_reads (w : List Char) (row col dr dc : Int) (g : Grid)
    (hwf : gridWF g) (hdir : ¬(dr = 0 ∧ dc = 0))
    (hcan : canPlaceWord w row col dr dc g = true) :
    (placementCells w row col dr dc).map
      (fun p => gridGet (placeWord w row col dr dc g) p.r p.c) = w := by
  induction w generalizing row col g with
  | nil => rfl
  | cons ch rest ih =>
    have hcan0 := (canPlaceWord_cons _ _ _ _ _ _ _).mp hcan
    have hcan1 := canPlaceWord_tail_gridSet ch rest row col dr dc g ch hdir hcan
    have hwf1 := gridWF_gridSet g row col ch hwf
    simp only [placementCells, placeWord, List.map_cons]
    refine List.cons_eq_cons.mpr ⟨?_, ?_⟩
    · rw [placeWord_untouched _ _ _ _ _ _ _ _ hdir hcan1 hcan0.1.1 hcan0.1.2.2.1
        (head_not_mem_placementCells _ _ _ _ _ hdir)]
      exact gridGet_gridSet_self g row col ch hwf hcan0.1
    · exact ih _ _ _ hwf1 hcan1

theorem placeWord_preserves (w : List Char) (row col dr dc : Int) (g : Grid)
    (pr pc : Int) (hwf : gridWF g) (hdir : ¬(dr = 0 ∧ dc = 0))
    (hcan : canPlaceWord w row col dr dc g = true)
    (hpr : 0 ≤ pr) (hpc : 0 ≤ pc)
    (hval : gridGet g pr pc ≠ ' ') :
    gridGet (placeWord w row col dr dc g) pr pc = gridGet g pr pc := by
  induction w generalizing row col g with
  | nil => rfl
  | cons ch rest ih =>
    rw [placeWord]
    have hcan0 := (canPlaceWord_cons _ _ _ _ _ _ _).mp hcan
    have hcan1 := canPlaceWord_tail_gridSet ch rest row col dr dc g ch hdir hcan
    have hwf1 := gridWF_gridSet g row col ch hwf
    by_cases hp : pr = row ∧ pc = col
    · obtain ⟨rfl, rfl⟩ := hp
      have hold : gridGet g pr pc = ch := by
        rcases hcan0.2.1 with hz | hz
        · exact absurd hz hval
        · exact hz
      have hset : gridGet (gridSet g pr pc ch) pr pc = ch :=
        gridGet_gridSet_self g pr pc ch hwf hcan0.1
      rw [ih _ _ _ hwf1 hcan1 (by rw [hset]; rw [hold] at hval; exact hval), hset, hold]
    · have hset : gridGet (gridSet g row col ch) pr pc = gridGet g pr pc := by
        apply gridGet_gridSet_ne
        rcases nonneg_toNat_ne row col pr pc hcan0.1.1 hcan0.1.2.2.1 hpr hpc
          (by tauto) with hx | hx
        · left; exact hx
        · right; exact hx
      rw [ih _ _ _ hwf1 hcan1 (by rw [hset]; exact hval), hset]

theorem placeWord_cover (w : List Char) (row col dr dc : Int) (g : Grid)
    (pr pc : Int) (hwf : gridWF g) (hdir : ¬(dr = 0 ∧ dc = 0))
    (hcan : canPlaceWord w row col dr dc g = true)
    (hpr : 0 ≤ pr) (hpc : 0 ≤ pc) :
    gridGet (placeWord w row col dr dc g) pr pc = gridGet g pr pc ∨
      gridGet (placeWord w row col dr dc g) pr pc ∈ w := by
  by_cases hmem : (⟨pr, pc⟩ : Cell) ∈ placementCells w row col dr dc
  · right
    have hreads := placeWord_reads w row col dr dc g hwf hdir hcan
    have : gridGet (placeWord w row col dr dc g) pr pc ∈
        (placementCells w row col dr dc).map
          (fun p => gridGet (placeWord w row col dr dc g) p.r p.c) :=
      List.mem_map_of_mem _ hmem
    rwa [hreads] at this
  · left
    exact placeWord_untouched w row col dr dc g pr pc hdir hcan hpr hpc hmem

/-! ### Fill phase -/

theorem blank_not_mem_hausa : ' ' ∉ HAUSA_ALPHABET_CHARS := by decide

theorem hausa_length_pos : 0 < HAUSA_ALPHABET_CHARS.length := by decide

theorem nextRand_lt (rng : List Nat) (k : Nat) (hk : 0 < k) :
    (nextRand rng k).1 < k := by
  cases rng with
  | nil => simpa [nextRand] using hk
  | cons v t => simpa [nextRand] using Nat.mod_lt v hk

theorem gridGet_toNat_congr (g : Grid) (r c r' c' : Int)
    (hr : r.toNat = r'.toNat) (hc : c.toNat = c'.toNat) :
    gridGet g r c = gridGet g r' c' := by
  rw [gridGet, gridGet, hr, hc]

theorem fillFold_preserve (l : List (Nat × Nat)) (g : Grid) (rng : List Nat)
    (r c : Int) (h : gridGet g r c ≠ ' ') :
    gridGet (l.foldl fillCellStep (g, rng)).1 r c = gridGet g r c := by
  induction l generalizing g rng with
  | nil => rfl
  | cons rc t ih =>
    rw [List.foldl_cons]
    by_cases hb : gridGet g (rc.1 : Int) (rc.2 : Int) = ' '
    · have hstep : fillCellStep (g, rng) rc =
          (gridSet g rc.1 rc.2
            (HAUSA_ALPHABET_CHARS.getD (nextRand rng HAUSA_ALPHABET_CHARS.length).1 ' '),
           (nextRand rng HAUSA_ALPHABET_CHARS.length).2) := by
        simp [fillCellStep, hb]
      have hne : (rc.1 : Int).toNat ≠ r.toNat ∨ (rc.2 : Int).toNat ≠ c.toNat := by
        by_contra hcon
        push_neg at hcon
        exact h (by rw [gridGet_toNat_congr g r c rc.1 rc.2 hcon.1.symm hcon.2.symm]
                    exact hb)
      have hgs := gridGet_gridSet_ne g rc.1 rc.2 r c
        (HAUSA_ALPHABET_CHARS.getD (nextRand rng HAUSA_ALPHABET_CHARS.length).1 ' ') hne
      rw [hstep, ih _ _ (by rw [hgs]; exact h), hgs]
    · have hstep : fillCellStep (g, rng) rc = (g, rng) := by
        simp [fillCellStep, hb]
      rw [hstep, ih _ _ h]

theorem fillFold_get (l : List (Nat × Nat)) (g : Grid) (rng : List Nat)
    (a b : Nat) (hwf : gridWF g) (ha : a < GRID_SIZE) (hb : b < GRID_SIZE)
    (hmem : (a, b) ∈ l) :
    (gridGet (l.foldl fillCellStep (g, rng)).1 a b = gridGet g a b ∧
      gridGet g (a : Int) (b : Int) ≠ ' ') ∨
      gridGet (l.foldl fillCellStep (g, rng)).1 a b ∈ HAUSA_ALPHABET_CHARS := by
  induction l generalizing g rng with
  | nil => simp at hmem
  | cons rc t ih =>
    rw [List.foldl_cons]
    by_cases hhead : rc = (a, b)
    · subst hhead
      by_cases hblank : gridGet g (a : Int) (b : Int) = ' '
      · right
        have hlt := nextRand_lt rng HAUSA_ALPHABET_CHARS.length hausa_length_pos
        have hchmem : HAUSA_ALPHABET_CHARS.getD
            (nextRand rng HAUSA_ALPHABET_CHARS.length).1 ' ' ∈ HAUSA_ALPHABET_CHARS :=
          getD_mem_of_lt _ _ _ hlt
        have hchne : HAUSA_ALPHABET_CHARS.getD
            (nextRand rng HAUSA_ALPHABET_CHARS.length).1 ' ' ≠ ' ' := by
          intro hcontra
          exact blank_not_mem_hausa (hcontra ▸ hchmem)
        have hstep : fillCellStep (g, rng) (a, b) =
            (gridSet g a b
              (HAUSA_ALPHABET_CHARS.getD (nextRand rng HAUSA_ALPHABET_CHARS.length).1 ' '),
             (nextRand rng HAUSA_ALPHABET_CHARS.length).2) := by
          simp [fillCellStep, hblank]
        have hself : gridGet (gridSet g a b
            (HAUSA_ALPHABET_CHARS.getD (nextRand rng HAUSA_ALPHABET_CHARS.length).1 ' '))
            a b = HAUSA_ALPHABET_CHARS.getD (nextRand rng HAUSA_ALPHABET_CHARS.length).1 ' ' :=
          gridGet_gridSet_self g a b _ hwf
            ⟨by positivity, by exact_mod_cast ha, by positivity, by exact_mod_cast hb⟩
        rw [hstep, fillFold_preserve t _ _ _ _ (by rw [hself]; exact hchne), hself]
        exact hchmem
      · left
        have hstep : fillCellStep (g, rng) (a, b) = (g, rng) := by
          simp [fillCellStep, hblank]
        rw [hstep]
        exact ⟨fillFold_preserve t g rng a b hblank, hblank⟩
    · have hmem' : (a, b) ∈ t := by
        rcases List.mem_cons.mp hmem with hx | hx
        · exact absurd hx.symm hhead
        · exact hx
      have hpairne : (rc.1 : Int).toNat ≠ ((a : Int)).toNat ∨
          (rc.2 : Int).toNat ≠ ((b : Int)).toNat := by
        rcases Prod.mk.injEq rc.1 rc.2 a b ▸ hhead with h
        by_contra hcon
        push_neg at hcon
        apply hhead
        have h1 : rc.1 = a := by omega
        have h2 : rc.2 = b := by omega
        cases rc
        simp_all
      by_cases hblank : gridGet g (rc.1 : Int) (rc.2 : Int) = ' '
      · have hstep : fillCellStep (g, rng) rc =
            (gridSet g rc.1 rc.2
              (HAUSA_ALPHABET_CHARS.getD (nextRand rng HAUSA_ALPHABET_CHARS.length).1 ' '),
             (nextRand rng HAUSA_ALPHABET_CHARS.length).2) := by
          simp [fillCellStep, hblank]
        have hgs := gridGet_gridSet_ne g rc.1 rc.2 a b
          (HAUSA_ALPHABET_CHARS.getD (nextRand rng HAUSA_ALPHABET_CHARS.length).1 ' ')
          hpairne
        rw [hstep]
        rcases ih (gridSet g rc.1 rc.2
            (HAUSA_ALPHABET_CHARS.getD (nextRand rng HAUSA_ALPHABET_CHARS.length).1 ' '))
            (nextRand rng HAUSA_ALPHABET_CHARS.length).2
            (gridWF_gridSet _ _ _ _ hwf) hmem' with hx | hx
        · left
          rw [hx.1, hgs]
          rw [hgs] at hx
          exact ⟨rfl, hx.2⟩
        · right; exact hx
      · have hstep : fillCellStep (g, rng) rc = (g, rng) := by
          simp [fillCellStep, hblank]
        rw [hstep]
        exact ih g rng hwf hmem'

theorem mem_gridPositions (a b : Nat) :
    (a, b) ∈ gridPositions ↔ a < GRID_SIZE ∧ b < GRID_SIZE := by
  simp [gridPositions]

theorem fillGrid_preserve (g : Grid) (rng : List Nat) (r c : Int)
    (h : gridGet g r c ≠ ' ') : gridGet (fillGrid g rng) r c = gridGet g r c :=
  fillFold_preserve gridPositions g rng r c h

theorem fillGrid_get (g : Grid) (rng : List Nat) (a b : Nat) (hwf : gridWF g)
    (ha : a < GRID_SIZE) (hb : b < GRID_SIZE) :
    (gridGet (fillGrid g rng) a b = gridGet g a b ∧
      gridGet g (a : Int) (b : Int) ≠ ' ') ∨
      gridGet (fillGrid g rng) a b ∈ HAUSA_ALPHABET_CHARS :=
  fillFold_get gridPositions g rng a b hwf ha hb ((mem_gridPositions a b).mpr ⟨ha, hb⟩)

theorem fillGrid_blank_mem (g : Grid) (rng : List Nat) (a b : Nat)
    (hwf : gridWF g) (ha : a < GRID_SIZE) (hb : b < GRID_SIZE)
    (hblank : gridGet g (a : Int) (b : Int) = ' ') :
    gridGet (fillGrid g rng) a b ∈ HAUSA_ALPHABET_CHARS := by
  rcases fillGrid_get g rng a b hwf ha hb with hx | hx
  · exact absurd hblank hx.2
  · exact hx

/-! ### Placement records, directions, attempts -/

theorem directions_ne_zero : ∀ p ∈ DIRECTIONS, ¬(p.1 = 0 ∧ p.2 = 0) := by decide

theorem directions_small :
    ∀ p ∈ DIRECTIONS, (p.1 = 0 ∨ p.1 = 1 ∨ p.1 = -1) ∧ (p.2 = 0 ∨ p.2 = 1 ∨ p.2 = -1) := by
  decide

theorem directions_getD_mem (d : Nat) : DIRECTIONS.getD d (0, 1) ∈ DIRECTIONS := by
  by_cases hd : d < DIRECTIONS.length
  · exact getD_mem_of_lt _ _ _ hd
  · rw [List.getD_eq_default _ _ (by omega)]
    decide

theorem mem_upsertPlacement (ps : List (List Char × List Cell)) (w v : List Char)
    (cs ds : List Cell) (h : (v, ds) ∈ upsertPlacement ps w cs) :
    (v, ds) ∈ ps ∨ (v = w ∧ ds = cs) := by
  induction ps with
  | nil => simpa [upsertPlacement] using h
  | cons e rest ih =>
    obtain ⟨w', cs'⟩ := e
    rw [upsertPlacement] at h
    by_cases hw : w' = w
    · rw [if_pos hw] at h
      rcases List.mem_cons.mp h with hx | hx
      · right
        obtain ⟨h1, h2⟩ := Prod.mk.injEq .. ▸ hx
        exact ⟨h1 ▸ hw, h2⟩
      · exact Or.inl (List.mem_cons_of_mem _ hx)
    · rw [if_neg hw] at h
      rcases List.mem_cons.mp h with hx | hx
      · exact Or.inl (hx ▸ List.mem_cons_self _ _)
      · rcases ih hx with hy | hy
        · exact Or.inl (List.mem_cons_of_mem _ hy)
        · exact Or.inr hy

theorem self_mem_upsertPlacement (ps : List (List Char × List Cell))
    (w : List Char) (cs : List Cell) : (w, cs) ∈ upsertPlacement ps w cs := by
  induction ps with
  | nil => simp [upsertPlacement]
  | cons e rest ih =>
    obtain ⟨w', cs'⟩ := e
    rw [upsertPlacement]
    by_cases hw : w' = w
    · rw [if_pos hw, hw]
      exact List.mem_cons_self _ _
    · rw [if_neg hw]
      exact List.mem_cons_of_mem _ ih

theorem mem_upsertPlacement_of_ne (ps : List (List Char × List Cell))
    (w v : List Char) (cs ds : List Cell) (hne : v ≠ w) (h : (v, ds) ∈ ps) :
    (v, ds) ∈ upsertPlacement ps w cs := by
  induction ps with
  | nil => simp at h
  | cons e rest ih =>
    obtain ⟨w', cs'⟩ := e
    rw [upsertPlacement]
    rcases List.mem_cons.mp h with hx | hx
    · obtain ⟨h1, h2⟩ := Prod.mk.injEq .. ▸ hx
      subst h1; subst h2
      rw [if_neg (by exact fun hh => hne hh)]
      exact List.mem_cons_self _ _
    · by_cases hw : w' = w
      · rw [if_pos hw]
        exact List.mem_cons_of_mem _ hx
      · rw [if_neg hw]
        exact List.mem_cons_of_mem _ (ih hx)

theorem keys_upsertPlacement_sub (ps : List (List Char × List Cell))
    (w v : List Char) (cs : List Cell)
    (h : v ∈ (upsertPlacement ps w cs).map Prod.fst) :
    v ∈ ps.map Prod.fst ∨ v = w := by
  rcases List.mem_map.mp h with ⟨⟨v', ds⟩, hm, hv⟩
  rcases mem_upsertPlacement ps w v' cs ds hm with hx | hx
  · exact Or.inl (hv ▸ List.mem_map_of_mem _ hx)
  · exact Or.inr (hv ▸ hx.1)

theorem keys_upsertPlacement_nodup (ps : List (List Char × List Cell))
    (w : List Char) (cs : List Cell) (h : (ps.map Prod.fst).Nodup) :
    ((upsertPlacement ps w cs).map Prod.fst).Nodup := by
  induction ps with
  | nil => simp [upsertPlacement]
  | cons e rest ih =>
    obtain ⟨w', cs'⟩ := e
    rw [upsertPlacement]
    simp only [List.map_cons, List.nodup_cons] at h
    by_cases hw : w' = w
    · rw [if_pos hw]
      simp only [List.map_cons, List.nodup_cons]
      exact h
    · rw [if_neg hw]
      simp only [List.map_cons, List.nodup_cons]
      refine ⟨?_, ih h.2⟩
      intro hmem
      rcases keys_upsertPlacement_sub rest w w' cs hmem with hx | hx
      · exact h.1 hx
      · exact hw hx

theorem lookupWord_some_mem (ps : List (List Char × List Cell)) (w : List Char)
    (cs : List Cell) (h : lookupWord ps w = some cs) : (w, cs) ∈ ps := by
  induction ps with
  | nil => simp [lookupWord] at h
  | cons e rest ih =>
    obtain ⟨w', cs'⟩ := e
    rw [lookupWord] at h
    by_cases hw : w' = w
    · rw [if_pos hw] at h
      subst hw
      obtain rfl := Option.some.injEq .. ▸ h
      exact List.mem_cons_self _ _
    · rw [if_neg hw] at h
      exact List.mem_cons_of_mem _ (ih h)

theorem lookupWord_of_mem_nodup (ps : List (List Char × List Cell))
    (w : List Char) (cs : List Cell) (hnd : (ps.map Prod.fst).Nodup)
    (h : (w, cs) ∈ ps) : lookupWord ps w = some cs := by
  induction ps with
  | nil => simp at h
  | cons e rest ih =>
    obtain ⟨w', cs'⟩ := e
    simp only [List.map_cons, List.nodup_cons] at hnd
    rw [lookupWord]
    rcases List.mem_cons.mp h with hx | hx
    · obtain ⟨h1, h2⟩ := Prod.mk.injEq .. ▸ hx
      subst h1; subst h2
      rw [if_pos rfl]
    · by_cases hw : w' = w
      · subst hw
        exact absurd (List.mem_map_of_mem Prod.fst hx) hnd.1
      · rw [if_neg hw]
        exact ih hnd.2 hx

theorem attemptLoop_attempts_le (fuel : Nat) (w : List Char) (g : Grid)
    (rng : List Nat) : (attemptLoop fuel w g rng).2.2 ≤ fuel := by
  induction fuel generalizing rng with
  | zero => simp [attemptLoop]
  | succ n ih =>
    simp only [attemptLoop]
    split_ifs with hc
    · simp
    · have := ih (nextRand (nextRand (nextRand rng GRID_SIZE).2 GRID_SIZE).2
        DIRECTIONS.length).2
      simp only []
      omega

theorem attemptLoop_some (fuel : Nat) (w : List Char) (g : Grid)
    (rng rng' : List Nat) (g' : Grid) (cs : List Cell) (n : Nat)
    (h : attemptLoop fuel w g rng = (some (g', cs), rng', n)) :
    ∃ row col dr dc, (dr, dc) ∈ DIRECTIONS ∧
      canPlaceWord w row col dr dc g = true ∧
      g' = placeWord w row col dr dc g ∧
      cs = placementCells w row col dr dc := by
  induction fuel generalizing rng rng' n with
  | zero => simp [attemptLoop] at h
  | succ m ih =>
    simp only [attemptLoop] at h
    split_ifs at h with hc
    · simp only [Prod.mk.injEq] at h
      obtain ⟨h1, h2, h3⟩ := h
      have hp := Option.some.inj h1
      obtain ⟨e1, e2⟩ := Prod.mk.injEq .. ▸ hp
      exact ⟨_, _, _, _, directions_getD_mem _, hc, e1.symm, e2.symm⟩
    · simp only [Prod.mk.injEq] at h
      obtain ⟨h1, h2, h3⟩ := h
      rcases hres : attemptLoop m w g (nextRand (nextRand (nextRand rng GRID_SIZE).2
          GRID_SIZE).2 DIRECTIONS.length).2 with ⟨a, b, k⟩
      rw [hres] at h1 h2
      simp only at h1 h2
      exact ih _ _ _ (by rw [hres, h1, h2])

/-! ### Word ordering -/

theorem mem_insertByLen (w v : List Char) (l : List (List Char)) :
    v ∈ insertByLen w l ↔ v = w ∨ v ∈ l := by
  induction l with
  | nil => simp [insertByLen]
  | cons x xs ih =>
    rw [insertByLen]
    by_cases hlt : x.length < w.length
    · rw [if_pos hlt]
      simp [List.mem_cons]
    · rw [if_neg hlt]
      simp only [List.mem_cons, ih]
      tauto

theorem mem_foldl_insertByLen (l : List (List Char)) (acc : List (List Char))
    (v : List Char) :
    v ∈ l.foldl (fun acc w => insertByLen w acc) acc ↔ v ∈ acc ∨ v ∈ l := by
  induction l generalizing acc with
  | nil => simp
  | cons x xs ih =>
    rw [List.foldl_cons, ih, mem_insertByLen]
    simp [List.mem_cons]
    tauto

theorem mem_sortWords (l : List (List Char)) (v : List Char) :
    v ∈ sortWords l ↔ v ∈ l := by
  rw [sortWords, mem_foldl_insertByLen]
  simp

/-! ### The generation invariant -/

theorem getD_replicate {α : Type} (n i : Nat) (a d : α) :
    (List.replicate n a).getD i d = if i < n then a else d := by
  induction n generalizing i with
  | zero => simp
  | succ m ih =>
    cases i with
    | zero => simp [List.replicate]
    | succ j =>
      rw [List.replicate, List.getD_cons_succ, ih]
      by_cases hj : j < m
      · rw [if_pos hj, if_pos (by omega)]
      · rw [if_neg hj, if_neg (by omega)]

theorem gridGet_emptyGrid (r c : Int) : gridGet emptyGrid r c = ' ' := by
  rw [gridGet, emptyGrid, getD_replicate]
  by_cases hr : r.toNat < GRID_SIZE
  · rw [if_pos hr, getD_replicate]
    by_cases hc : c.toNat < GRID_SIZE
    · rw [if_pos hc]
    · rw [if_neg hc]
  · rw [if_neg hr]
    rfl

/-- Structural invariant of the placement phase: the grid is well formed,
every recorded placement's word comes from the supplied pool `W`, every
recorded cell list is the straight ray of one of the 8 directions with
in-bounds cells, keys are distinct, and every non-blank cell carries a
character of some recorded word. -/
structure GenInv (W : List (List Char)) (g : Grid)
    (ps : List (List Char × List Cell)) : Prop where
  wf : gridWF g
  keys : ∀ w cs, (w, cs) ∈ ps → w ∈ W
  shape : ∀ w cs, (w, cs) ∈ ps → ∃ row col dr dc, (dr, dc) ∈ DIRECTIONS ∧
    cs = placementCells w row col dr dc ∧ ∀ p ∈ cs, InB p.r p.c
  nodup : (ps.map Prod.fst).Nodup
  cover : ∀ a b : Nat, a < GRID_SIZE → b < GRID_SIZE →
    gridGet g (a : Int) (b : Int) = ' ' ∨
      ∃ w cs, (w, cs) ∈ ps ∧ gridGet g (a : Int) (b : Int) ∈ w

/-- Reading the grid along every recorded placement reproduces its word. -/
def ReadsOK (g : Grid) (ps : List (List Char × List Cell)) : Prop :=
  ∀ w cs, (w, cs) ∈ ps → cs.map (fun p => gridGet g p.r p.c) = w

theorem genInv_init (W : List (List Char)) : GenInv W emptyGrid [] := by
  refine ⟨gridWF_emptyGrid, by simp, by simp, by simp, ?_⟩
  intro a b _ _
  exact Or.inl (gridGet_emptyGrid _ _)

theorem readsOK_init (g : Grid) : ReadsOK g [] := by
  intro w cs h
  simp at h

theorem genInv_place (W : List (List Char)) (w : List Char)
    (row col dr dc : Int) (g : Grid) (ps : List (List Char × List Cell))
    (hmemdir : (dr, dc) ∈ DIRECTIONS)
    (hcan : canPlaceWord w row col dr dc g = true)
    (hW : w ∈ W) (hinv : GenInv W g ps) :
    GenInv W (placeWord w row col dr dc g)
      (upsertPlacement ps w (placementCells w row col dr dc)) := by
  have hdir := directions_ne_zero _ hmemdir
  refine ⟨gridWF_placeWord _ _ _ _ _ _ hinv.wf, ?_, ?_, ?_, ?_⟩
  · intro v ds h
    rcases mem_upsertPlacement _ _ _ _ _ h with hold | hnew
    · exact hinv.keys v ds hold
    · exact hnew.1 ▸ hW
  · intro v ds h
    rcases mem_upsertPlacement _ _ _ _ _ h with hold | hnew
    · exact hinv.shape v ds hold
    · obtain ⟨rfl, rfl⟩ := hnew
      refine ⟨row, col, dr, dc, hmemdir, rfl, ?_⟩
      intro p hp
      rcases (mem_placementCells _ _ _ _ _ _).mp hp with ⟨k, hk, rfl⟩
      exact ((canPlaceWord_iff _ _ _ _ _ _).mp hcan k hk).1
  · exact keys_upsertPlacement_nodup _ _ _ hinv.nodup
  · intro a b ha hb
    rcases placeWord_cover w row col dr dc g a b hinv.wf hdir hcan
        (by positivity) (by positivity) with heq | hmem'
    · rw [heq]
      rcases hinv.cover a b ha hb with hblank | ⟨v, ds, hvds, hvmem⟩
      · exact Or.inl hblank
      · right
        by_cases hvw : v = w
        · exact ⟨w, _, self_mem_upsertPlacement _ _ _, hvw ▸ hvmem⟩
        · exact ⟨v, ds, mem_upsertPlacement_of_ne _ _ _ _ _ hvw hvds, hvmem⟩
    · exact Or.inr ⟨w, _, self_mem_upsertPlacement _ _ _, hmem'⟩

theorem readsOK_place (W : List (List Char)) (w : List Char)
    (row col dr dc : Int) (g : Grid) (ps : List (List Char × List Cell))
    (hmemdir : (dr, dc) ∈ DIRECTIONS)
    (hcan : canPlaceWord w row col dr dc g = true)
    (hinv : GenInv W g ps) (hreads : ReadsOK g ps)
    (hblankkeys : ∀ v ds, (v, ds) ∈ ps → ' ' ∉ v) :
    ReadsOK (placeWord w row col dr dc g)
      (upsertPlacement ps w (placementCells w row col dr dc)) := by
  have hdir := directions_ne_zero _ hmemdir
  intro v ds h
  rcases mem_upsertPlacement _ _ _ _ _ h with hold | hnew
  · have hds := hreads v ds hold
    obtain ⟨_, _, _, _, _, _, hbounds⟩ := hinv.shape v ds hold
    have hcongr : ∀ p ∈ ds, gridGet (placeWord w row col dr dc g) p.r p.c =
        gridGet g p.r p.c := by
      intro p hp
      have hval : gridGet g p.r p.c ≠ ' ' := by
        intro hcontra
        apply hblankkeys v ds hold
        rw [← hds]
        rw [← hcontra]
        exact List.mem_map_of_mem _ hp
      obtain ⟨b1, b2, b3, b4⟩ := hbounds p hp
      exact placeWord_preserves w row col dr dc g p.r p.c hinv.wf hdir hcan b1 b3 hval
    calc ds.map (fun p => gridGet (placeWord w row col dr dc g) p.r p.c)
        = ds.map (fun p => gridGet g p.r p.c) := List.map_congr_left hcongr
      _ = v := hds
  · obtain ⟨h1, h2⟩ := hnew
    rw [h1, h2]
    exact placeWord_reads w row col dr dc g hinv.wf hdir hcan

theorem generateLoop_inv_reads (ws : List (List Char)) (W : List (List Char))
    (g : Grid) (ps : List (List Char × List Cell)) (rng : List Nat)
    (hws : ∀ w ∈ ws, w ∈ W) (hWblank : ∀ v ∈ W, ' ' ∉ v)
    (hinv : GenInv W g ps) (hreads : ReadsOK g ps) :
    GenInv W (generateLoop ws g ps rng).1 (generateLoop ws g ps rng).2.1 ∧
      ReadsOK (generateLoop ws g ps rng).1 (generateLoop ws g ps rng).2.1 := by
  induction ws generalizing g ps rng with
  | nil => exact ⟨hinv, hreads⟩
  | cons w ws ih =>
    have hwW : w ∈ W := hws w (List.mem_cons_self _ _)
    have hws' : ∀ v ∈ ws, v ∈ W := fun v hv => hws v (List.mem_cons_of_mem _ hv)
    rcases hres : attemptLoop maxAttempts w g rng with ⟨o, rng', n⟩
    cases o with
    | none =>
      simp only [generateLoop, hres]
      exact ih _ _ _ hws' hinv hreads
    | some gc =>
      obtain ⟨g', cs⟩ := gc
      simp only [generateLoop, hres]
      obtain ⟨row, col, dr, dc, hmemdir, hcan, hg', hcs⟩ :=
        attemptLoop_some _ _ _ _ _ _ _ _ hres
      subst hg'; subst hcs
      have hblankkeys : ∀ v ds, (v, ds) ∈ ps → ' ' ∉ v := fun v ds h =>
        hWblank v (hinv.keys v ds h)
      exact ih _ _ _ hws'
        (genInv_place W w row col dr dc g ps hmemdir hcan hwW hinv)
        (readsOK_place W w row col dr dc g ps hmemdir hcan hinv hreads hblankkeys)

theorem generateLoop_inv (ws : List (List Char)) (W : List (List Char))
    (g : Grid) (ps : List (List Char × List Cell)) (rng : List Nat)
    (hws : ∀ w ∈ ws, w ∈ W) (hinv : GenInv W g ps) :
    GenInv W (generateLoop ws g ps rng).1 (generateLoop ws g ps rng).2.1 := by
  induction ws generalizing g ps rng with
  | nil => exact hinv
  | cons w ws ih =>
    have hwW : w ∈ W := hws w (List.mem_cons_self _ _)
    have hws' : ∀ v ∈ ws, v ∈ W := fun v hv => hws v (List.mem_cons_of_mem _ hv)
    rcases hres : attemptLoop maxAttempts w g rng with ⟨o, rng', n⟩
    cases o with
    | none =>
      simp only [generateLoop, hres]
      exact ih _ _ _ hws' hinv
    | some gc =>
      obtain ⟨g', cs⟩ := gc
      simp only [generateLoop, hres]
      obtain ⟨row, col, dr, dc, hmemdir, hcan, hg', hcs⟩ :=
        attemptLoop_some _ _ _ _ _ _ _ _ hres
      subst hg'; subst hcs
      exact ih _ _ _ hws'
        (genInv_place W w row col dr dc g ps hmemdir hcan hwW hinv)

theorem generateLoop_keys (ws : List (List Char)) (g : Grid)
    (ps : List (List Char × List Cell)) (rng : List Nat) (v : List Char)
    (h : v ∈ (generateLoop ws g ps rng).2.1.map Prod.fst) :
    v ∈ ps.map Prod.fst ∨ v ∈ ws := by
  induction ws generalizing g ps rng with
  | nil => exact Or.inl h
  | cons w ws ih =>
    rcases hres : attemptLoop maxAttempts w g rng with ⟨o, rng', n⟩
    cases o with
    | none =>
      rw [generateLoop, hres] at h
      rcases ih _ _ _ h with hx | hx
      · exact Or.inl hx
      · exact Or.inr (List.mem_cons_of_mem _ hx)
    | some gc =>
      obtain ⟨g', cs⟩ := gc
      rw [generateLoop, hres] at h
      rcases ih _ _ _ h with hx | hx
      · rcases keys_upsertPlacement_sub _ _ _ _ hx with hy | hy
        · exact Or.inl hy
        · exact Or.inr (hy ▸ List.mem_cons_self _ _)
      · exact Or.inr (List.mem_cons_of_mem _ hx)

/-! ### The generator as a whole -/

/-- The word pool actually attempted by `generatePuzzle`. -/
def wordsToHide (words : List (List Char)) : List (List Char) :=
  sortWords (words.filter fun w => w.length ≤ GRID_SIZE)

theorem mem_wordsToHide (words : List (List Char)) (v : List Char) :
    v ∈ wordsToHide words ↔ v ∈ words ∧ v.length ≤ GRID_SIZE := by
  rw [wordsToHide, mem_sortWords, List.mem_filter]
  simp

theorem generatePuzzle_eq (words : List (List Char)) (rng : List Nat) :
    generatePuzzle words rng =
      (fillGrid (generateLoop (wordsToHide words) emptyGrid [] rng).1
        (generateLoop (wordsToHide words) emptyGrid [] rng).2.2,
       (generateLoop (wordsToHide words) emptyGrid [] rng).2.1) := rfl

theorem generatePuzzle_fst (words : List (List Char)) (rng : List Nat) :
    (generatePuzzle words rng).1 =
      fillGrid (generateLoop (wordsToHide words) emptyGrid [] rng).1
        (generateLoop (wordsToHide words) emptyGrid [] rng).2.2 := by
  rw [generatePuzzle_eq]

theorem generatePuzzle_snd (words : List (List Char)) (rng : List Nat) :
    (generatePuzzle words rng).2 =
      (generateLoop (wordsToHide words) emptyGrid [] rng).2.1 := by
  rw [generatePuzzle_eq]

theorem generatePuzzle_inv (words : List (List Char)) (rng : List Nat) :
    GenInv (wordsToHide words) (generateLoop (wordsToHide words) emptyGrid [] rng).1
      (generatePuzzle words rng).2 :=
  generateLoop_inv _ _ _ _ _ (fun _ hw => hw) (genInv_init _)

theorem generatePuzzle_inv_reads (words : List (List Char)) (rng : List Nat)
    (hblank : ∀ v ∈ words, ' ' ∉ v) :
    GenInv (wordsToHide words) (generateLoop (wordsToHide words) emptyGrid [] rng).1
        (generatePuzzle words rng).2 ∧
      ReadsOK (generateLoop (wordsToHide words) emptyGrid [] rng).1
        (generatePuzzle words rng).2 :=
  generateLoop_inv_reads _ _ _ _ _ (fun _ hw => hw)
    (fun v hv => hblank v ((mem_wordsToHide words v).mp hv).1)
    (genInv_init _) (readsOK_init _)

set_option maxRecDepth 4000 in
/-- Reading the final (filled) grid along a recorded placement still
reproduces the word: placement cells are non-blank, so the fill phase
leaves them alone. -/
theorem generatePuzzle_reads (words : List (List Char)) (rng : List Nat)
    (hblank : ∀ v ∈ words, ' ' ∉ v) (w : List Char) (cs : List Cell)
    (hmem : (w, cs) ∈ (generatePuzzle words rng).2) :
    cs.map (fun p => gridGet (generatePuzzle words rng).1 p.r p.c) = w := by
  obtain ⟨hinv, hreads⟩ := generatePuzzle_inv_reads words rng hblank
  have hds := hreads w cs hmem
  have hwb : ' ' ∉ w :=
    hblank w ((mem_wordsToHide words w).mp (hinv.keys w cs hmem)).1
  have hcongr : ∀ p ∈ cs,
      gridGet (generatePuzzle words rng).1 p.r p.c =
        gridGet (generateLoop (wordsToHide words) emptyGrid [] rng).1 p.r p.c := by
    intro p hp
    have hval : gridGet (generateLoop (wordsToHide words) emptyGrid [] rng).1
        p.r p.c ≠ ' ' := by
      intro hcontra
      apply hwb
      rw [← hds, ← hcontra]
      exact List.mem_map_of_mem _ hp
    conv_lhs => rw [generatePuzzle_fst]
    exact fillGrid_preserve _ _ _ _ hval
  calc cs.map (fun p => gridGet (generatePuzzle words rng).1 p.r p.c)
      = cs.map (fun p =>
          gridGet (generateLoop (wordsToHide words) emptyGrid [] rng).1 p.r p.c) :=
        List.map_congr_left hcongr
    _ = w := hds

/-! ### Validator helper lemmas -/

theorem intSign_of_pos (x : Int) (h : 0 < x) : intSign x = 1 := by
  rw [intSign, if_neg (by omega)]
  rw [Int.natAbs_of_nonneg (le_of_lt h)]
  exact Int.ediv_self (by omega)

theorem intSign_of_neg (x : Int) (h : x < 0) : intSign x = -1 := by
  rw [intSign, if_neg (by omega)]
  nth_rewrite 1 [show x = -((x.natAbs : Int)) from by omega]
  rw [Int.neg_ediv_of_dvd dvd_rfl, Int.ediv_self (by omega)]

theorem intSign_zero : intSign 0 = 0 := by
  rw [intSign, if_pos rfl]

theorem canonical_step_count (x : Int) (i : Nat) (hx : x ≠ 0)
    (h : (i : Int) * intSign x = x) : i = x.natAbs := by
  rcases lt_or_gt_of_ne hx with hneg | hpos
  · rw [intSign_of_neg x hneg] at h
    omega
  · rw [intSign_of_pos x hpos] at h
    omega

theorem canonicalPath_length (s f : Cell) (len : Nat) :
    (canonicalPath s f len).length = len := by
  rw [canonicalPath, List.length_map, List.length_range]

theorem mem_canonicalPath (s f : Cell) (len : Nat) (p : Cell) :
    p ∈ canonicalPath s f len ↔ ∃ i, i < len ∧
      p = ⟨s.r + i * intSign (f.r - s.r), s.c + i * intSign (f.c - s.c)⟩ := by
  rw [canonicalPath]
  constructor
  · intro h
    rcases List.mem_map.mp h with ⟨i, hi, hp⟩
    exact ⟨i, List.mem_range.mp hi, hp.symm⟩
  · rintro ⟨i, hi, rfl⟩
    exact List.mem_map.mpr ⟨i, List.mem_range.mpr hi, rfl⟩

theorem contains_iff_mem_cell (l : List Cell) (a : Cell) :
    l.contains a = true ↔ a ∈ l := by
  simp [List.contains_eq_any_beq]

theorem cellSetEq_iff (xs ys : List Cell) :
    cellSetEq xs ys = true ↔ xs.toFinset = ys.toFinset := by
  rw [cellSetEq, Bool.and_eq_true, beq_iff_eq, List.all_eq_true]
  constructor
  · rintro ⟨hcard, hsub⟩
    have hsub' : xs.toFinset ⊆ ys.toFinset := by
      intro a ha
      rw [List.mem_toFinset] at ha ⊢
      exact (contains_iff_mem_cell ys a).mp
        (hsub a (by rw [List.mem_dedup]; exact ha))
    refine Finset.eq_of_subset_of_card_le hsub' ?_
    rw [List.card_toFinset, List.card_toFinset, hcard]
  · intro heq
    constructor
    · rw [← List.card_toFinset, ← List.card_toFinset, heq]
    · intro a ha
      rw [contains_iff_mem_cell, ← List.mem_toFinset, ← heq, List.mem_toFinset]
      rw [List.mem_dedup] at ha
      exact ha

theorem cellSetEq_self (xs : List Cell) : cellSetEq xs xs = true := by
  rw [cellSetEq_iff]

theorem getLastD_cons_irrel (a d d' : Cell) (l : List Cell) :
    (a :: l).getLastD d = (a :: l).getLastD d' := by
  cases l with
  | nil => rfl
  | cons b t => rw [List.getLastD_cons d a (b :: t), List.getLastD_cons d' a (b :: t)]

theorem getLastD_cons_mem (a : Cell) (l : List Cell) (d : Cell) :
    (a :: l).getLastD d ∈ a :: l := by
  induction l generalizing a with
  | nil => simp [List.getLastD]
  | cons b t ih =>
    rw [List.getLastD_cons]
    exact List.mem_cons_of_mem _ (ih b)

theorem matchWords_outcome (g : Grid) (ps : List (List Char × List Cell))
    (found : List (List Char)) (sel : List Cell) (selw : List Char)
    (wtf : List (List Char)) :
    matchWords g ps found sel selw wtf = Outcome.NoMatch ∨
      ∃ w, matchWords g ps found sel selw wtf = Outcome.Found w := by
  induction wtf with
  | nil => exact Or.inl rfl
  | cons w rest ih =>
    cases hlk : lookupWord ps w with
    | none =>
      rw [matchWords, hlk]
      exact ih
    | some locs =>
      simp only [matchWords, hlk]
      split_ifs with hcond
      · exact Or.inr ⟨w, rfl⟩
      · exact ih

theorem straight_cond_bool (dr dc : Int) :
    (decide (dr = 0) || decide (dc = 0) || (dr.natAbs == dc.natAbs)) = true ↔
      (dr = 0 ∨ dc = 0 ∨ dr.natAbs = dc.natAbs) := by
  simp [Bool.or_eq_true, decide_eq_true_eq, beq_iff_eq, or_assoc]

/-- C5: for every selection path of length at least 2, the validator
classifies the path as straight iff the endpoint deltas satisfy
`deltaRow = 0` or `deltaCol = 0` or `|deltaRow| = |deltaCol|`, and returns
`NotStraight` exactly in the remaining cases. -/
theorem claim_C5_straightness (g : Grid) (ps : List (List Char × List Cell))
    (wtf found : List (List Char)) (path : List Cell) (h2 : 2 ≤ path.length) :
    validateSelection g ps wtf found path = Outcome.NotStraight ↔
      ¬(((path.getLastD ⟨0, 0⟩).r - (path.headD ⟨0, 0⟩).r = 0) ∨
        ((path.getLastD ⟨0, 0⟩).c - (path.headD ⟨0, 0⟩).c = 0) ∨
        ((path.getLastD ⟨0, 0⟩).r - (path.headD ⟨0, 0⟩).r).natAbs =
          ((path.getLastD ⟨0, 0⟩).c - (path.headD ⟨0, 0⟩).c).natAbs) := by
  obtain ⟨p0, tail0, rfl⟩ : ∃ a t, path = a :: t := by
    cases path with
    | nil => simp at h2
    | cons a t => exact ⟨a, t, rfl⟩
  obtain ⟨p1, rest, rfl⟩ : ∃ a t, tail0 = a :: t := by
    cases tail0 with
    | nil => simp at h2
    | cons a t => exact ⟨a, t, rfl⟩
  have hlast : (p0 :: p1 :: rest).getLastD p0 =
      (p0 :: p1 :: rest).getLastD ⟨0, 0⟩ := getLastD_cons_irrel _ _ _ _
  simp only [validateSelection, List.headD_cons]
  rw [if_neg (by simp)]
  rw [hlast]
  split_ifs with hcb hset
  · have hcond := (straight_cond_bool _ _).mp hcb
    constructor
    · intro hres
      exfalso
      rcases matchWords_outcome g ps found (p0 :: p1 :: rest)
          (readPath g (canonicalPath p0 ((p0 :: p1 :: rest).getLastD ⟨0, 0⟩)
            (p0 :: p1 :: rest).length)) wtf with hx | ⟨w, hx⟩ <;>
        rw [hx] at hres <;> exact Outcome.noConfusion hres
    · intro hneg
      exact absurd hcond hneg
  · have hcond := (straight_cond_bool _ _).mp hcb
    constructor
    · intro hres
      exact hres.elim
    · intro hneg
      exact absurd hcond hneg
  · exact ⟨fun _ => fun hc => hcb ((straight_cond_bool _ _).mpr hc), fun _ => rfl⟩

theorem claim_C5_witness :
    validateSelection emptyGrid [] [] [] [⟨0, 0⟩, ⟨1, 2⟩] = Outcome.NotStraight :=
  (claim_C5_straightness emptyGrid [] [] [] [⟨0, 0⟩, ⟨1, 2⟩] (by decide)).mpr
    (by decide)

/-- The 5×5 example grid of the spec: `cat` placed at `(0,0)` direction
right, remaining cells filled with `a`. -/
def catGrid5 : Grid :=
  [['c', 'a', 't', 'a', 'a'],
   ['a', 'a', 'a', 'a', 'a'],
   ['a', 'a', 'a', 'a', 'a'],
   ['a', 'a', 'a', 'a', 'a'],
   ['a', 'a', 'a', 'a', 'a']]

/-- C6: for every selection of length at least 2 whose endpoints pass the
straightness check, a mismatch between the canonical straight-line cell
set and the selection's cell set yields `ImpreciseLine`; in particular the
spec's 5×5 `cat` example with path `[(0,0), (0,2)]` yields
`ImpreciseLine`. -/
theorem claim_C6_imprecise_line :
    (∀ (g : Grid) (ps : List (List Char × List Cell))
      (wtf found : List (List Char)) (path : List Cell),
      2 ≤ path.length →
      (((path.getLastD ⟨0, 0⟩).r - (path.headD ⟨0, 0⟩).r = 0) ∨
        ((path.getLastD ⟨0, 0⟩).c - (path.headD ⟨0, 0⟩).c = 0) ∨
        ((path.getLastD ⟨0, 0⟩).r - (path.headD ⟨0, 0⟩).r).natAbs =
          ((path.getLastD ⟨0, 0⟩).c - (path.headD ⟨0, 0⟩).c).natAbs) →
      (canonicalPath (path.headD ⟨0, 0⟩) (path.getLastD ⟨0, 0⟩)
          path.length).toFinset ≠ path.toFinset →
      validateSelection g ps wtf found path = Outcome.ImpreciseLine) ∧
    validateSelection catGrid5 [(['c', 'a', 't'], [⟨0, 0⟩, ⟨0, 1⟩, ⟨0, 2⟩])]
      [['c', 'a', 't']] [] [⟨0, 0⟩, ⟨0, 2⟩] = Outcome.ImpreciseLine := by
  constructor
  · intro g ps wtf found path h2 haligned hdiff
    obtain ⟨p0, tail0, rfl⟩ : ∃ a t, path = a :: t := by
      cases path with
      | nil => simp at h2
      | cons a t => exact ⟨a, t, rfl⟩
    obtain ⟨p1, rest, rfl⟩ : ∃ a t, tail0 = a :: t := by
      cases tail0 with
      | nil => simp at h2
      | cons a t => exact ⟨a, t, rfl⟩
    have hlast : (p0 :: p1 :: rest).getLastD p0 =
        (p0 :: p1 :: rest).getLastD ⟨0, 0⟩ := getLastD_cons_irrel _ _ _ _
    simp only [List.headD_cons] at haligned hdiff
    simp only [validateSelection, List.headD_cons]
    rw [if_neg (by simp)]
    rw [hlast]
    rw [if_pos ((straight_cond_bool _ _).mpr haligned)]
    rw [if_neg ?hfalse]
    case hfalse =>
      intro htrue
      exact hdiff ((cellSetEq_iff _ _).mp htrue).symm
  · decide

/-- C7 counterexample: for the aligned path `[(0,0), (0,3)]` (length 2,
traversed span 3, so `path.length - 1` does not equal the span), the
validator returns `ImpreciseLine`, not `NotStraight` as the claim
states. -/
theorem claim_C7_counterexample :
    validateSelection catGrid5 [(['c', 'a', 't'], [⟨0, 0⟩, ⟨0, 1⟩, ⟨0, 2⟩])]
        [['c', 'a', 't']] [] [⟨0, 0⟩, ⟨0, 3⟩] = Outcome.ImpreciseLine ∧
      Outcome.ImpreciseLine ≠ Outcome.NotStraight ∧
      (([⟨0, 0⟩, ⟨0, 3⟩] : List Cell).getLastD ⟨0, 0⟩).r -
        (([⟨0, 0⟩, ⟨0, 3⟩] : List Cell).headD ⟨0, 0⟩).r = 0 ∧
      ([⟨0, 0⟩, ⟨0, 3⟩] : List Cell).length - 1 ≠
        ((([⟨0, 0⟩, ⟨0, 3⟩] : List Cell).getLastD ⟨0, 0⟩).c -
          (([⟨0, 0⟩, ⟨0, 3⟩] : List Cell).headD ⟨0, 0⟩).c).natAbs := by
  refine ⟨by decide, by decide, by decide, by decide⟩

theorem finish_not_mem_canonicalPath (s f : Cell) (len : Nat) (hlen : 2 ≤ len)
    (hspan : len - 1 < max (f.r - s.r).natAbs (f.c - s.c).natAbs) :
    f ∉ canonicalPath s f len := by
  rw [mem_canonicalPath]
  rintro ⟨i, hi, hp⟩
  have hr : f.r = s.r + i * intSign (f.r - s.r) := congrArg Cell.r hp
  have hc : f.c = s.c + i * intSign (f.c - s.c) := congrArg Cell.c hp
  have hr' : (i : Int) * intSign (f.r - s.r) = f.r - s.r := by linarith
  have hc' : (i : Int) * intSign (f.c - s.c) = f.c - s.c := by linarith
  by_cases hdr : f.r - s.r = 0
  · have hdc : f.c - s.c ≠ 0 := by
      intro hz
      rw [hdr, hz] at hspan
      omega
    have hi2 := canonical_step_count (f.c - s.c) i hdc hc'
    rw [hdr] at hspan
    omega
  · have hi1 := canonical_step_count (f.r - s.r) i hdr hr'
    by_cases hdc : f.c - s.c = 0
    · rw [hdc] at hspan
      omega
    · have hi2 := canonical_step_count (f.c - s.c) i hdc hc'
      omega

/-- C7 amended: an aligned path whose traversed span exceeds
`path.length - 1` is rejected with `ImpreciseLine` (not `NotStraight` as
the claim states): the canonical reconstruction of `path.length` cells
never reaches the last cell, so the cell-set comparison fails. -/
theorem claim_C7_amended (g : Grid) (ps : List (List Char × List Cell))
    (wtf found : List (List Char)) (path : List Cell) (h2 : 2 ≤ path.length)
    (haligned : ((path.getLastD ⟨0, 0⟩).r - (path.headD ⟨0, 0⟩).r = 0) ∨
      ((path.getLastD ⟨0, 0⟩).c - (path.headD ⟨0, 0⟩).c = 0) ∨
      ((path.getLastD ⟨0, 0⟩).r - (path.headD ⟨0, 0⟩).r).natAbs =
        ((path.getLastD ⟨0, 0⟩).c - (path.headD ⟨0, 0⟩).c).natAbs)
    (hspan : path.length - 1 <
      max ((path.getLastD ⟨0, 0⟩).r - (path.headD ⟨0, 0⟩).r).natAbs
        ((path.getLastD ⟨0, 0⟩).c - (path.headD ⟨0, 0⟩).c).natAbs) :
    validateSelection g ps wtf found path = Outcome.ImpreciseLine := by
  obtain ⟨p0, tail0, rfl⟩ : ∃ a t, path = a :: t := by
    cases path with
    | nil => simp at h2
    | cons a t => exact ⟨a, t, rfl⟩
  obtain ⟨p1, rest, rfl⟩ : ∃ a t, tail0 = a :: t := by
    cases tail0 with
    | nil => simp at h2
    | cons a t => exact ⟨a, t, rfl⟩
  have hlast : (p0 :: p1 :: rest).getLastD p0 =
      (p0 :: p1 :: rest).getLastD ⟨0, 0⟩ := getLastD_cons_irrel _ _ _ _
  simp only [List.headD_cons] at haligned hspan
  simp only [validateSelection, List.headD_cons]
  rw [if_neg (by simp)]
  rw [hlast]
  rw [if_pos ((straight_cond_bool _ _).mpr haligned)]
  rw [if_neg ?hfalse]
  case hfalse =>
    intro htrue
    have hmemfin : ((p0 :: p1 :: rest).getLastD ⟨0, 0⟩) ∈
        canonicalPath p0 ((p0 :: p1 :: rest).getLastD ⟨0, 0⟩)
          (p0 :: p1 :: rest).length := by
      have heq := (cellSetEq_iff _ _).mp htrue
      have : ((p0 :: p1 :: rest).getLastD ⟨0, 0⟩) ∈ (p0 :: p1 :: rest) := by
        rw [← hlast]
        exact getLastD_cons_mem _ _ _
      rw [← List.mem_toFinset, heq, List.mem_toFinset] at this
      exact this
    exact finish_not_mem_canonicalPath p0 _ _ (by simp) hspan hmemfin

theorem claim_C6_witness :
    validateSelection emptyGrid [] [] [] [⟨0, 0⟩, ⟨0, 2⟩] = Outcome.ImpreciseLine :=
  claim_C6_imprecise_line.1 emptyGrid [] [] [] [⟨0, 0⟩, ⟨0, 2⟩]
    (by decide) (by decide) (by decide)

theorem claim_C7_witness :
    validateSelection emptyGrid [] [] [] [⟨0, 0⟩, ⟨0, 3⟩] = Outcome.ImpreciseLine :=
  claim_C7_amended emptyGrid [] [] [] [⟨0, 0⟩, ⟨0, 3⟩]
    (by decide) (by decide) (by decide)

/-! ### Reverse selection of a recorded placement -/

theorem getD_irrel_of_lt {α : Type} (l : List α) (i : Nat) (d d' : α)
    (h : i < l.length) : l.getD i d = l.getD i d' := by
  rw [l.getD_eq_getElem d h, l.getD_eq_getElem d' h]

theorem getLastD_eq_getD : ∀ (l : List Cell), l ≠ [] → ∀ d : Cell,
    l.getLastD d = l.getD (l.length - 1) d
  | [], h, _ => absurd rfl h
  | [_], _, _ => rfl
  | a :: b :: t, _, d => by
    rw [List.getLastD_cons d a (b :: t)]
    rw [getLastD_eq_getD (b :: t) (by simp) a]
    have h1 : (a :: b :: t).length - 1 = ((b :: t).length - 1) + 1 := by
      simp
    rw [h1, List.getD_cons_succ]
    exact getD_irrel_of_lt _ _ _ _ (by simp)

theorem getD_reverse (l : List Cell) (i : Nat) (hi : i < l.length) (d : Cell) :
    l.reverse.getD i d = l.getD (l.length - 1 - i) d := by
  have h1 : i < l.reverse.length := by simpa using hi
  have h2 : l.length - 1 - i < l.length := by omega
  rw [l.reverse.getD_eq_getElem d h1, l.getD_eq_getElem d h2]
  exact List.getElem_reverse h1

theorem placementCells_getElem (w : List Char) (row col dr dc : Int) (k : Nat)
    (hk : k < (placementCells w row col dr dc).length) :
    (placementCells w row col dr dc)[k] = ⟨row + k * dr, col + k * dc⟩ := by
  have hk' : k < w.length := by rwa [placementCells_length] at hk
  rw [← (placementCells w row col dr dc).getD_eq_getElem ⟨0, 0⟩ hk]
  exact placementCells_getD w row col dr dc k hk'

theorem contains_iff_mem_word (l : List (List Char)) (a : List Char) :
    l.contains a = true ↔ a ∈ l := by
  simp [List.contains_eq_any_beq]

theorem matchWords_found (g : Grid) (ps : List (List Char × List Cell))
    (found : List (List Char)) (sel : List Cell) (selw : List Char)
    (wtf : List (List Char)) (w : List Char) (cs : List Cell)
    (hnd : (ps.map Prod.fst).Nodup)
    (hmem : (w, cs) ∈ ps)
    (hwtf : w ∈ wtf)
    (hset : cellSetEq sel cs = true)
    (hword : (selw == readPath g cs || selw == (readPath g cs).reverse) = true)
    (hfound : w ∉ found)
    (hother : ∀ v ds, (v, ds) ∈ ps → v ≠ w → cellSetEq sel ds = false) :
    matchWords g ps found sel selw wtf = Outcome.Found w := by
  induction wtf with
  | nil => simp at hwtf
  | cons v rest ih =>
    by_cases hvw : v = w
    · subst hvw
      have hlk : lookupWord ps v = some cs := lookupWord_of_mem_nodup _ _ _ hnd hmem
      simp only [matchWords, hlk]
      rw [if_pos]
      rw [hset, hword]
      have hcont : found.contains v = false := by
        by_contra hcon
        rw [Bool.not_eq_false, contains_iff_mem_word] at hcon
        exact hfound hcon
      rw [hcont]
      rfl
    · have hwtf' : w ∈ rest := by
        rcases List.mem_cons.mp hwtf with hx | hx
        · exact absurd hx.symm hvw
        · exact hx
      cases hlk : lookupWord ps v with
      | none =>
        simp only [matchWords, hlk]
        exact ih hwtf'
      | some ds =>
        have hds : (v, ds) ∈ ps := lookupWord_some_mem _ _ _ hlk
        have hfalse := hother v ds hds hvw
        simp only [matchWords, hlk]
        rw [if_neg (by rw [hfalse]; simp)]
        exact ih hwtf'

theorem readPath_reverse (g : Grid) (l : List Cell) :
    readPath g l.reverse = (readPath g l).reverse := by
  simp [readPath, List.map_reverse]

theorem canonicalPath_getD (s f : Cell) (len i : Nat) (hi : i < len) :
    (canonicalPath s f len).getD i ⟨0, 0⟩ =
      ⟨s.r + (i : Int) * intSign (f.r - s.r),
       s.c + (i : Int) * intSign (f.c - s.c)⟩ := by
  rw [canonicalPath]
  rw [getD_map_of_lt _ _ _ _ 0 (by simpa using hi)]
  rw [(List.range len).getD_eq_getElem 0 (by simpa using hi)]
  rw [List.getElem_range]

/-- C4 amended: for a generated puzzle (over blank-free words), selecting
a placed word's cells in reverse order is accepted, PROVIDED the word has
at least 2 letters and no other recorded placement occupies the same cell
set (otherwise the first qualifying word in iteration order is returned
instead, as the counterexample shows). -/
theorem claim_C4_amended (words : List (List Char)) (rng : List Nat)
    (hblank : ∀ v ∈ words, ' ' ∉ v)
    (w : List Char) (cs : List Cell) (found wtf : List (List Char))
    (hmem : (w, cs) ∈ (generatePuzzle words rng).2)
    (hlen : 2 ≤ w.length)
    (hfound : w ∉ found)
    (hwtf : w ∈ wtf)
    (huniq : ∀ p ∈ (generatePuzzle words rng).2, p.1 ≠ w →
      p.2.toFinset ≠ cs.toFinset) :
    validateSelection (generatePuzzle words rng).1 (generatePuzzle words rng).2
      wtf found cs.reverse = Outcome.Found w := by
  obtain ⟨hinv, hreads⟩ := generatePuzzle_inv_reads words rng hblank
  obtain ⟨row, col, dr, dc, hmemdir, hcs, hbounds⟩ := hinv.shape w cs hmem
  have hreadfin : cs.map (fun p => gridGet (generatePuzzle words rng).1 p.r p.c) = w :=
    generatePuzzle_reads words rng hblank w cs hmem
  subst hcs
  have hsmall := directions_small _ hmemdir
  have hsr : dr = 0 ∨ dr = 1 ∨ dr = -1 := hsmall.1
  have hsc : dc = 0 ∨ dc = 1 ∨ dc = -1 := hsmall.2
  have hplen : (placementCells w row col dr dc).length = w.length :=
    placementCells_length _ _ _ _ _
  have hpne : placementCells w row col dr dc ≠ [] := by
    intro h
    rw [h] at hplen
    simp at hplen
    omega
  obtain ⟨q0, qtail, hq⟩ := List.exists_cons_of_ne_nil
    (show (placementCells w row col dr dc).reverse ≠ [] by simpa using hpne)
  have hrevD : ∀ i, i < w.length →
      (placementCells w row col dr dc).reverse.getD i ⟨0, 0⟩ =
        ⟨row + ((w.length : Int) - 1 - i) * dr,
         col + ((w.length : Int) - 1 - i) * dc⟩ := by
    intro i hi
    rw [getD_reverse _ i (by omega) ⟨0, 0⟩]
    rw [show (placementCells w row col dr dc).length - 1 - i = w.length - 1 - i from
      by rw [hplen]]
    rw [placementCells_getD _ _ _ _ _ _ (by omega)]
    have hcast : ((w.length - 1 - i : Nat) : Int) = (w.length : Int) - 1 - i := by
      omega
    rw [hcast]
  have hq0 : q0 = ⟨row + ((w.length : Int) - 1) * dr,
      col + ((w.length : Int) - 1) * dc⟩ := by
    have h0 := hrevD 0 (by omega)
    rw [hq] at h0
    simpa using h0
  have hrevlen : (q0 :: qtail).length = w.length := by
    rw [← hq]
    simp [hplen]
  have hfin : (q0 :: qtail).getLastD q0 = (⟨row, col⟩ : Cell) := by
    rw [← hq, getLastD_eq_getD _ (by simpa using hpne) q0]
    rw [getD_irrel_of_lt _ _ q0 ⟨0, 0⟩ (by simp [hplen]; omega)]
    rw [show (placementCells w row col dr dc).reverse.length - 1 = w.length - 1 from
      by simp [hplen]]
    rw [hrevD (w.length - 1) (by omega)]
    have hcast : ((w.length - 1 : Nat) : Int) = (w.length : Int) - 1 := by omega
    rw [hcast]
    have e1 : row + ((w.length : Int) - 1 - ((w.length : Int) - 1)) * dr = row := by ring
    have e2 : col + ((w.length : Int) - 1 - ((w.length : Int) - 1)) * dc = col := by ring
    rw [e1, e2]
  have hΔr : ((q0 :: qtail).getLastD q0).r - q0.r = -((w.length : Int) - 1) * dr := by
    rw [hfin, hq0]
    simp
    ring
  have hΔc : ((q0 :: qtail).getLastD q0).c - q0.c = -((w.length : Int) - 1) * dc := by
    rw [hfin, hq0]
    simp
    ring
  have hD : (0 : Int) < (w.length : Int) - 1 := by
    omega
  have hstepR : intSign (((q0 :: qtail).getLastD q0).r - q0.r) = -dr := by
    rw [hΔr]
    rcases hsr with h0 | h1 | hm1
    · rw [h0, mul_zero, intSign_zero, neg_zero]
    · rw [h1, mul_one, intSign_of_neg _ (by omega)]
    · rw [hm1]
      rw [show -((w.length : Int) - 1) * (-1) = (w.length : Int) - 1 from by ring]
      rw [intSign_of_pos _ hD]
      ring
  have hstepC : intSign (((q0 :: qtail).getLastD q0).c - q0.c) = -dc := by
    rw [hΔc]
    rcases hsc with h0 | h1 | hm1
    · rw [h0, mul_zero, intSign_zero, neg_zero]
    · rw [h1, mul_one, intSign_of_neg _ (by omega)]
    · rw [hm1]
      rw [show -((w.length : Int) - 1) * (-1) = (w.length : Int) - 1 from by ring]
      rw [intSign_of_pos _ hD]
      ring
  have hcanon : canonicalPath q0 ((q0 :: qtail).getLastD q0) (q0 :: qtail).length =
      (placementCells w row col dr dc).reverse := by
    apply List.ext_getElem
    · rw [canonicalPath_length, hrevlen]
      simp [hplen]
    · intro i h1 h2
      have hi : i < w.length := by
        rw [canonicalPath_length, hrevlen] at h1
        exact h1
      rw [← (canonicalPath q0 ((q0 :: qtail).getLastD q0)
        (q0 :: qtail).length).getD_eq_getElem ⟨0, 0⟩ h1]
      rw [← (placementCells w row col dr dc).reverse.getD_eq_getElem ⟨0, 0⟩ h2]
      rw [canonicalPath_getD _ _ _ _ (by rwa [canonicalPath_length] at h1)]
      rw [hstepR, hstepC, hq0]
      rw [hrevD i hi]
      have e1 : row + ((w.length : Int) - 1) * dr + (i : Int) * (-dr) =
          row + ((w.length : Int) - 1 - i) * dr := by ring
      have e2 : col + ((w.length : Int) - 1) * dc + (i : Int) * (-dc) =
          col + ((w.length : Int) - 1 - i) * dc := by ring
      rw [e1, e2]
  have hstraight : (((q0 :: qtail).getLastD q0).r - q0.r = 0 ∨
      ((q0 :: qtail).getLastD q0).c - q0.c = 0 ∨
      (((q0 :: qtail).getLastD q0).r - q0.r).natAbs =
        (((q0 :: qtail).getLastD q0).c - q0.c).natAbs) := by
    rcases hsr with h0 | h1 | hm1
    · left
      rw [hΔr, h0, mul_zero]
    · rcases hsc with hc0 | hc1 | hcm1
      · right; left
        rw [hΔc, hc0, mul_zero]
      · right; right
        rw [hΔr, hΔc, h1, hc1]
      · right; right
        rw [hΔr, hΔc, h1, hcm1]
        omega
    · rcases hsc with hc0 | hc1 | hcm1
      · right; left
        rw [hΔc, hc0, mul_zero]
      · right; right
        rw [hΔr, hΔc, hm1, hc1]
        omega
      · right; right
        rw [hΔr, hΔc, hm1, hcm1]
  rw [hq]
  simp only [validateSelection]
  rw [if_neg (by rw [hrevlen]; omega)]
  rw [if_pos ((straight_cond_bool _ _).mpr hstraight)]
  rw [hcanon]
  rw [if_pos (by rw [← hq]; exact cellSetEq_self _)]
  rw [← hq]
  apply matchWords_found _ _ _ _ _ _ w (placementCells w row col dr dc)
    hinv.nodup hmem hwtf
  · rw [cellSetEq_iff]
    exact List.toFinset_reverse
  · rw [readPath_reverse]
    simp
  · exact hfound
  · intro v ds hvds hvw
    have hne := huniq (v, ds) hvds hvw
    by_contra hcon
    rw [Bool.not_eq_false] at hcon
    rw [cellSetEq_iff] at hcon
    rw [List.toFinset_reverse] at hcon
    exact hne (hcon.symm)

theorem claim_C4_witness :
    validateSelection (generatePuzzle [['c', 'a', 't']] [0, 0, 0]).1
        (generatePuzzle [['c', 'a', 't']] [0, 0, 0]).2
        [['c', 'a', 't']] [] ([⟨0, 0⟩, ⟨0, 1⟩, ⟨0, 2⟩] : List Cell).reverse =
      Outcome.Found ['c', 'a', 't'] :=
  claim_C4_amended [['c', 'a', 't']] [0, 0, 0] (by decide) ['c', 'a', 't']
    [⟨0, 0⟩, ⟨0, 1⟩, ⟨0, 2⟩] [] [['c', 'a', 't']] (by decide) (by decide)
    (by decide) (by decide) (by decide)

/-- C4 counterexample: generating from the word list `abc, cba` with a
random stream that lays `abc` at `(0,0)` rightward and `cba` at `(0,2)`
leftward puts both words on the same three cells.  Selecting `cba`'s
recorded cells in reverse order (with `cba` not yet found) does not
return a match for `cba`: the first qualifying word in iteration order,
`abc`, wins. -/
theorem claim_C4_counterexample :
    validateSelection
        (generatePuzzle [['a', 'b', 'c'], ['c', 'b', 'a']] [0, 0, 0, 0, 2, 4]).1
        (generatePuzzle [['a', 'b', 'c'], ['c', 'b', 'a']] [0, 0, 0, 0, 2, 4]).2
        [['a', 'b', 'c'], ['c', 'b', 'a']] [] [⟨0, 0⟩, ⟨0, 1⟩, ⟨0, 2⟩] =
      Outcome.Found ['a', 'b', 'c'] ∧
    (['c', 'b', 'a'], ([⟨0, 2⟩, ⟨0, 1⟩, ⟨0, 0⟩] : List Cell)) ∈
      (generatePuzzle [['a', 'b', 'c'], ['c', 'b', 'a']] [0, 0, 0, 0, 2, 4]).2 ∧
    ([⟨0, 0⟩, ⟨0, 1⟩, ⟨0, 2⟩] : List Cell) =
      ([⟨0, 2⟩, ⟨0, 1⟩, ⟨0, 0⟩] : List Cell).reverse ∧
    (['c', 'b', 'a'] : List Char) ∉ ([] : List (List Char)) ∧
    Outcome.Found ['a', 'b', 'c'] ≠ Outcome.Found ['c', 'b', 'a'] := by
  refine ⟨?_, by decide, by decide, by decide, by decide⟩
  have hA0 : gridGet (generateLoop
      (wordsToHide [['a', 'b', 'c'], ['c', 'b', 'a']]) emptyGrid []
      [0, 0, 0, 0, 2, 4]).1 0 0 = 'a' := by decide
  have hA1 : gridGet (generateLoop
      (wordsToHide [['a', 'b', 'c'], ['c', 'b', 'a']]) emptyGrid []
      [0, 0, 0, 0, 2, 4]).1 0 1 = 'b' := by decide
  have hA2 : gridGet (generateLoop
      (wordsToHide [['a', 'b', 'c'], ['c', 'b', 'a']]) emptyGrid []
      [0, 0, 0, 0, 2, 4]).1 0 2 = 'c' := by decide
  have hG0 : gridGet
      (generatePuzzle [['a', 'b', 'c'], ['c', 'b', 'a']] [0, 0, 0, 0, 2, 4]).1
      0 0 = 'a' := by
    rw [generatePuzzle_fst]
    rw [fillGrid_preserve _ _ 0 0 (by rw [hA0]; decide), hA0]
  have hG1 : gridGet
      (generatePuzzle [['a', 'b', 'c'], ['c', 'b', 'a']] [0, 0, 0, 0, 2, 4]).1
      0 1 = 'b' := by
    rw [generatePuzzle_fst]
    rw [fillGrid_preserve _ _ 0 1 (by rw [hA1]; decide), hA1]
  have hG2 : gridGet
      (generatePuzzle [['a', 'b', 'c'], ['c', 'b', 'a']] [0, 0, 0, 0, 2, 4]).1
      0 2 = 'c' := by
    rw [generatePuzzle_fst]
    rw [fillGrid_preserve _ _ 0 2 (by rw [hA2]; decide), hA2]
  have hread : readPath
      (generatePuzzle [['a', 'b', 'c'], ['c', 'b', 'a']] [0, 0, 0, 0, 2, 4]).1
      [⟨0, 0⟩, ⟨0, 1⟩, ⟨0, 2⟩] = ['a', 'b', 'c'] := by
    simp only [readPath, List.map_cons, List.map_nil]
    rw [hG0, hG1, hG2]
    decide
  have hPS : (generatePuzzle [['a', 'b', 'c'], ['c', 'b', 'a']]
      [0, 0, 0, 0, 2, 4]).2 =
      [(['a', 'b', 'c'], [⟨0, 0⟩, ⟨0, 1⟩, ⟨0, 2⟩]),
       (['c', 'b', 'a'], [⟨0, 2⟩, ⟨0, 1⟩, ⟨0, 0⟩])] := by decide
  simp only [validateSelection]
  rw [if_neg (by decide)]
  rw [if_pos (by decide)]
  rw [if_pos (by decide)]
  rw [show canonicalPath ⟨0, 0⟩
      (([⟨0, 0⟩, ⟨0, 1⟩, ⟨0, 2⟩] : List Cell).getLastD ⟨0, 0⟩)
      ([⟨0, 0⟩, ⟨0, 1⟩, ⟨0, 2⟩] : List Cell).length =
      ([⟨0, 0⟩, ⟨0, 1⟩, ⟨0, 2⟩] : List Cell) from by decide]
  rw [hread, hPS]
  have hlk : lookupWord
      [(['a', 'b', 'c'], [⟨0, 0⟩, ⟨0, 1⟩, ⟨0, 2⟩]),
       (['c', 'b', 'a'], [⟨0, 2⟩, ⟨0, 1⟩, ⟨0, 0⟩])] ['a', 'b', 'c'] =
      some [⟨0, 0⟩, ⟨0, 1⟩, ⟨0, 2⟩] := by decide
  simp only [matchWords, hlk]
  rw [hread]
  rw [if_pos (by decide)]

/-! ### Claims about the generator -/

/-- C1: for every puzzle generated from blank-free words (the source's
word lists contain only letters; the blank is the generator's "unset"
sentinel), reading the final grid's characters along a recorded
placement's cells, in recorded order, reproduces the word exactly — in
the final grid, after later words were placed across earlier ones and
the remaining cells were filled. -/
theorem claim_C1_reads_back (words : List (List Char)) (rng : List Nat)
    (hblank : ∀ v ∈ words, ' ' ∉ v) (w : List Char) (cs : List Cell)
    (hmem : (w, cs) ∈ (generatePuzzle words rng).2) :
    cs.map (fun p => gridGet (generatePuzzle words rng).1 p.r p.c) = w :=
  generatePuzzle_reads words rng hblank w cs hmem

theorem claim_C1_witness :
    ([⟨0, 0⟩, ⟨0, 1⟩, ⟨0, 2⟩] : List Cell).map
      (fun p => gridGet (generatePuzzle [['c', 'a', 't']] [0, 0, 0]).1 p.r p.c) =
      ['c', 'a', 't'] :=
  claim_C1_reads_back [['c', 'a', 't']] [0, 0, 0] (by decide) ['c', 'a', 't']
    [⟨0, 0⟩, ⟨0, 1⟩, ⟨0, 2⟩] (by decide)

/-- C2: every cell of the generated grid holds exactly one character,
which is not the unset sentinel and is a character of a placed word or a
character of the fill alphabet; and every key of the returned placements
map is one of the input words. -/
theorem claim_C2_no_unset_cells (words : List (List Char)) (rng : List Nat) :
    (∀ a b : Nat, a < GRID_SIZE → b < GRID_SIZE →
      gridGet (generatePuzzle words rng).1 (a : Int) (b : Int) ≠ ' ' ∧
      ((∃ w cs, (w, cs) ∈ (generatePuzzle words rng).2 ∧
          gridGet (generatePuzzle words rng).1 (a : Int) (b : Int) ∈ w) ∨
        gridGet (generatePuzzle words rng).1 (a : Int) (b : Int) ∈
          HAUSA_ALPHABET_CHARS)) ∧
    (∀ w cs, (w, cs) ∈ (generatePuzzle words rng).2 → w ∈ words) := by
  have hinv := generatePuzzle_inv words rng
  constructor
  · intro a b ha hb
    have hfill := fillGrid_get (generateLoop (wordsToHide words) emptyGrid [] rng).1
      (generateLoop (wordsToHide words) emptyGrid [] rng).2.2 a b hinv.wf ha hb
    rcases hfill with ⟨hpres, hne⟩ | hmem
    · rcases hinv.cover a b ha hb with hblank | ⟨w, cs, hw, hchar⟩
      · exact absurd hblank hne
      · constructor
        · rw [generatePuzzle_fst, hpres]
          exact hne
        · left
          refine ⟨w, cs, hw, ?_⟩
          rw [generatePuzzle_fst, hpres]
          exact hchar
    · constructor
      · rw [generatePuzzle_fst]
        intro hcontra
        exact blank_not_mem_hausa (hcontra ▸ hmem)
      · right
        rw [generatePuzzle_fst]
        exact hmem
  · intro w cs hmem
    exact ((mem_wordsToHide words w).mp (hinv.keys w cs hmem)).1

theorem claim_C2_witness :
    gridGet (generatePuzzle [] []).1 0 0 ≠ ' ' ∧
      ((∃ w cs, (w, cs) ∈ (generatePuzzle [] []).2 ∧
          gridGet (generatePuzzle [] []).1 0 0 ∈ w) ∨
        gridGet (generatePuzzle [] []).1 0 0 ∈ HAUSA_ALPHABET_CHARS) :=
  (claim_C2_no_unset_cells [] []).1 0 0 (by decide) (by decide)

/-- C3: a candidate placement is accepted iff every character position
is in bounds and every target cell is unset or already holds exactly the
required character; consequently, in every puzzle generated from
blank-free words, two placements sharing a cell require the identical
character at that cell. -/
theorem claim_C3_acceptance_and_overlap :
    (∀ (w : List Char) (row col dr dc : Int) (g : Grid),
      canPlaceWord w row col dr dc g = true ↔
        ∀ k, k < w.length →
          InB (row + k * dr) (col + k * dc) ∧
            (gridGet g (row + k * dr) (col + k * dc) = ' ' ∨
              gridGet g (row + k * dr) (col + k * dc) = w.getD k ' ')) ∧
    (∀ (words : List (List Char)) (rng : List Nat),
      (∀ v ∈ words, ' ' ∉ v) →
      ∀ (w1 : List Char) (cs1 : List Cell) (w2 : List Char) (cs2 : List Cell),
        (w1, cs1) ∈ (generatePuzzle words rng).2 →
        (w2, cs2) ∈ (generatePuzzle words rng).2 →
        ∀ i j : Nat, i < cs1.length → j < cs2.length →
          cs1.getD i ⟨0, 0⟩ = cs2.getD j ⟨0, 0⟩ →
          w1.getD i ' ' = w2.getD j ' ') := by
  constructor
  · exact canPlaceWord_iff
  · intro words rng hblank w1 cs1 w2 cs2 h1 h2 i j hi hj hcell
    have r1 := generatePuzzle_reads words rng hblank w1 cs1 h1
    have r2 := generatePuzzle_reads words rng hblank w2 cs2 h2
    rw [← r1, ← r2]
    rw [getD_map_of_lt _ _ _ _ ⟨0, 0⟩ hi, getD_map_of_lt _ _ _ _ ⟨0, 0⟩ hj]
    rw [hcell]

theorem claim_C3_witness :
    canPlaceWord ['c', 'a', 't'] 0 0 0 1 emptyGrid = true ∧
      (['c', 'a', 't'] : List Char).getD 0 ' ' =
        (['c', 'a', 't'] : List Char).getD 0 ' ' := by
  constructor
  · exact (claim_C3_acceptance_and_overlap.1 ['c', 'a', 't'] 0 0 0 1
      emptyGrid).mpr (by decide)
  · exact claim_C3_acceptance_and_overlap.2 [['c', 'a', 't']] [0, 0, 0]
      (by decide) ['c', 'a', 't'] [⟨0, 0⟩, ⟨0, 1⟩, ⟨0, 2⟩] ['c', 'a', 't']
      [⟨0, 0⟩, ⟨0, 1⟩, ⟨0, 2⟩] (by decide) (by decide) 0 0 (by decide)
      (by decide) (by decide)

/-- C9: a word longer than the grid side is filtered out before any
placement attempt and is never a key of the returned placements map. -/
theorem claim_C9_long_words_skipped (words : List (List Char)) (rng : List Nat)
    (w : List Char) (cs : List Cell) (hlong : GRID_SIZE < w.length) :
    (w, cs) ∉ (generatePuzzle words rng).2 := by
  intro hmem
  have hk := (generatePuzzle_inv words rng).keys w cs hmem
  have := (mem_wordsToHide words w).mp hk
  omega

theorem claim_C9_witness :
    (List.replicate 16 'a', ([] : List Cell)) ∉
      (generatePuzzle [List.replicate 16 'a'] []).2 :=
  claim_C9_long_words_skipped [List.replicate 16 'a'] []
    (List.replicate 16 'a') [] (by decide)

/-- C10: every filler character written into a still-unset cell is drawn
from the hard-coded `HAUSA_ALPHABET_CHARS` constant, and the grid
returned by `generatePuzzle` is exactly the fill phase applied to the
placement phase's grid — the fill alphabet is not a parameter and does
not depend on the supplied word list. -/
theorem claim_C10_fixed_fill_alphabet :
    (∀ (g : Grid) (rng : List Nat) (a b : Nat), gridWF g →
      a < GRID_SIZE → b < GRID_SIZE → gridGet g (a : Int) (b : Int) = ' ' →
      gridGet (fillGrid g rng) (a : Int) (b : Int) ∈ HAUSA_ALPHABET_CHARS) ∧
    (∀ (words : List (List Char)) (rng : List Nat),
      (generatePuzzle words rng).1 =
        fillGrid (generateLoop (wordsToHide words) emptyGrid [] rng).1
          (generateLoop (wordsToHide words) emptyGrid [] rng).2.2) := by
  constructor
  · intro g rng a b hwf ha hb hblank
    exact fillGrid_blank_mem g rng a b hwf ha hb hblank
  · exact generatePuzzle_fst

theorem claim_C10_witness :
    gridGet (fillGrid emptyGrid []) 0 0 ∈ HAUSA_ALPHABET_CHARS :=
  claim_C10_fixed_fill_alphabet.1 emptyGrid [] 0 0 gridWF_emptyGrid
    (by decide) (by decide) (gridGet_emptyGrid 0 0)

theorem attemptLoop_stuck (w : List Char) (g : Grid)
    (hfail : canPlaceWord w 0 0 0 1 g = false) :
    ∀ fuel, attemptLoop fuel w g [] = (none, [], fuel) := by
  intro fuel
  induction fuel with
  | zero => rfl
  | succ n ih =>
    simp only [attemptLoop, nextRand, List.getD_cons_zero, DIRECTIONS,
      Nat.cast_zero]
    rw [hfail]
    simp only [Bool.false_eq_true, if_false, ih]

/-- C8: the randomized placement loop performs at most
`GRID_SIZE² × 8 × 2` attempts for each word; a word whose attempt budget
is exhausted contributes nothing at its step of the placement loop (the
grid, placements and random stream simply move on), no error is raised
(all functions are total), and placement keys only ever come from the
attempted words. -/
theorem claim_C8_attempt_budget :
    (∀ (fuel : Nat) (w : List Char) (g : Grid) (rng : List Nat),
      (attemptLoop fuel w g rng).2.2 ≤ fuel) ∧
    (∀ (w : List Char) (g : Grid) (rng : List Nat),
      (attemptLoop maxAttempts w g rng).2.2 ≤ GRID_SIZE * GRID_SIZE * 8 * 2) ∧
    (∀ (w : List Char) (ws : List (List Char)) (g : Grid)
      (ps : List (List Char × List Cell)) (rng rng' : List Nat) (n : Nat),
      attemptLoop maxAttempts w g rng = (none, rng', n) →
      generateLoop (w :: ws) g ps rng = generateLoop ws g ps rng') ∧
    (∀ (ws : List (List Char)) (g : Grid) (ps : List (List Char × List Cell))
      (rng : List Nat) (v : List Char),
      v ∈ (generateLoop ws g ps rng).2.1.map Prod.fst →
      v ∈ ps.map Prod.fst ∨ v ∈ ws) := by
  refine ⟨attemptLoop_attempts_le, ?_, ?_, generateLoop_keys⟩
  · intro w g rng
    exact attemptLoop_attempts_le maxAttempts w g rng
  · intro w ws g ps rng rng' n h
    rw [generateLoop, h]

theorem claim_C8_witness :
    generateLoop [['a', 'b']]
        (List.replicate GRID_SIZE (List.replicate GRID_SIZE 'z')) [] [] =
      generateLoop []
        (List.replicate GRID_SIZE (List.replicate GRID_SIZE 'z')) [] [] ∧
    (attemptLoop maxAttempts ['a', 'b']
        (List.replicate GRID_SIZE (List.replicate GRID_SIZE 'z')) []).2.2 ≤
      GRID_SIZE * GRID_SIZE * 8 * 2 := by
  have hstuck := attemptLoop_stuck ['a', 'b']
    (List.replicate GRID_SIZE (List.replicate GRID_SIZE 'z')) (by decide)
    maxAttempts
  exact ⟨claim_C8_attempt_budget.2.2.1 ['a', 'b'] []
      (List.replicate GRID_SIZE (List.replicate GRID_SIZE 'z')) [] [] []
      maxAttempts hstuck,
    claim_C8_attempt_budget.2.1 ['a', 'b']
      (List.replicate GRID_SIZE (List.replicate GRID_SIZE 'z')) []⟩
